import Mathlib

set_option maxRecDepth 40000

/- Shallow embedding of the aggregation engine in src/disciplineSummary.py:
   the metric functions (count_by_grade, count_by_location, count_by_hour,
   count_by_date, count_by_subtype, top_students, top_authors,
   hourly_location), the time/date normalizers they contain, the
   orchestrator calculate_summary_metrics, and the grouping loop of
   generate_building_reports.

   Modelling conventions:
   - Python dicts are association lists kept in insertion order (new keys
     appended at the end, updates in place), matching CPython dict order.
   - Python's stable sort (`sorted`, list.sort) is modelled by a stable
     insertion sort; the stable sorted permutation is unique, so this
     agrees with CPython's timsort.
   - A cell value is a `PyVal`: a string, a non-string object identified
     by its `str()` rendering, or an absent key (`row.get` default case).
   - `datetime.strptime` for the fixed formats used by the source is
     modelled by deterministic character-list parsers with the same
     accepted language (1-2 digit numeric fields with the same range
     checks as CPython's _strptime regexes, `%p` case-insensitive,
     whitespace in the format matching one or more whitespace chars,
     whole string consumed).  A `%S` value of 60/61 makes CPython's
     datetime constructor raise ValueError, which the source catches like
     a parse failure, so seconds are checked `<= 59` directly.
   - `pd.to_datetime(s, format="%m/%d/%Y", errors="coerce")` is modelled
     by a strict month/day/year parse with calendar validity (leap years)
     and the pandas Timestamp year range approximated as 1678..2261.
   - float division and `round(x, 2)` in the day-of-week averages are
     modelled over exact rationals with round-half-to-even. -/

namespace Discipline

open scoped List

/-! ## Generic association-list counting (Python dict semantics) -/

variable {κ : Type} [DecidableEq κ]

/-- Python `d[k] = d.get(k, 0) + 1`: bump the first entry of key `k`
    in place, or append a fresh entry at the end. -/
def bump (k : κ) : List (κ × Nat) → List (κ × Nat)
  | [] => [(k, 1)]
  | (k', n) :: rest => if k = k' then (k', n + 1) :: rest else (k', n) :: bump k rest

/-- Tally of a list of keys, entries in first-seen (dict insertion) order. -/
def counts (l : List κ) : List (κ × Nat) :=
  l.foldl (fun m k => bump k m) []

/-- Python `d.get(k, 0)` / `d[k]` on a tally. -/
def lookupD (k : κ) : List (κ × Nat) → Nat
  | [] => 0
  | (k', n) :: rest => if k = k' then n else lookupD k rest

/-- Sum of all counts of a tally. -/
def sumCounts (m : List (κ × Nat)) : Nat := (m.map Prod.snd).sum

/-- First-seen deduplication, i.e. Python dict key order. -/
def dedupFS (l : List κ) : List κ :=
  l.foldl (fun ks k => if k ∈ ks then ks else ks ++ [k]) []

/-- Number of occurrences of key `k` in a list. -/
def keyCount (k : κ) (l : List κ) : Nat := l.countP (fun x => decide (x = k))

/-- Index of the first occurrence of `k` (length if absent). -/
def idxOf (k : κ) : List κ → Nat
  | [] => 0
  | x :: xs => if x = k then 0 else idxOf k xs + 1

/-- `a` occurs (strictly) before `b` somewhere in `l`. -/
def Before {α : Type} (a b : α) (l : List α) : Prop :=
  ∃ l₁ l₂ l₃, l = l₁ ++ a :: l₂ ++ b :: l₃

/-! ## Stable insertion sort (model of Python's stable `sorted`) -/

/-- Insert before the first element with a `≥` key: stable ascending. -/
def insAsc {α : Type} (key : α → Nat) (x : α) : List α → List α
  | [] => [x]
  | y :: ys => if key x ≤ key y then x :: y :: ys else y :: insAsc key x ys

/-- Stable ascending sort by a `Nat` key (`sorted(l, key=key)`). -/
def isortAsc {α : Type} (key : α → Nat) : List α → List α
  | [] => []
  | x :: xs => insAsc key x (isortAsc key xs)

/-- Insert before the first element with a `≤` key: stable descending. -/
def insDesc {α : Type} (key : α → Nat) (x : α) : List α → List α
  | [] => [x]
  | y :: ys => if key y ≤ key x then x :: y :: ys else y :: insDesc key x ys

/-- Stable descending sort by a `Nat` key
    (`sorted(l, key=key, reverse=True)`). -/
def isortDesc {α : Type} (key : α → Nat) : List α → List α
  | [] => []
  | x :: xs => insDesc key x (isortDesc key xs)

/-! ## Clock-time parsing (`datetime.strptime` for the three formats) -/

def digitVal (c : Char) : Nat := c.toNat - 48

/-- A 1-2 digit numeric field (maximal munch; CPython's regexes for
    `%I`/`%H`/`%M`/`%S` backtrack, but after each field the format has a
    non-digit, so maximal munch is equivalent). -/
def num2 : List Char → Option (Nat × List Char)
  | c₁ :: c₂ :: rest =>
      if c₁.isDigit then
        if c₂.isDigit then some (digitVal c₁ * 10 + digitVal c₂, rest)
        else some (digitVal c₁, c₂ :: rest)
      else none
  | [c₁] => if c₁.isDigit then some (digitVal c₁, []) else none
  | [] => none

/-- Exactly four digits (`%Y`). -/
def num4 : List Char → Option (Nat × List Char)
  | a :: b :: c :: d :: rest =>
      if a.isDigit && b.isDigit && c.isDigit && d.isDigit then
        some (((digitVal a * 10 + digitVal b) * 10 + digitVal c) * 10 + digitVal d, rest)
      else none
  | _ => none

/-- A literal character of the format. -/
def chomp (c : Char) : List Char → Option (List Char)
  | c' :: rest => if c' = c then some rest else none
  | [] => none

/-- One or more whitespace characters (a blank in a strptime format). -/
def ws1 : List Char → Option (List Char)
  | c :: rest =>
      if c.isWhitespace then some (rest.dropWhile Char.isWhitespace) else none
  | [] => none

/-- `%p`: AM/PM, case-insensitive; `true` means PM. -/
def meridiemP : List Char → Option (Bool × List Char)
  | c₁ :: c₂ :: rest =>
      if (c₁ = 'A' ∨ c₁ = 'a') ∧ (c₂ = 'M' ∨ c₂ = 'm') then some (false, rest)
      else if (c₁ = 'P' ∨ c₁ = 'p') ∧ (c₂ = 'M' ∨ c₂ = 'm') then some (true, rest)
      else none
  | _ => none

/-- `"%I:%M:%S %p"`; result is the hour in 0..23.  Seconds 60/61 match
    CPython's `%S` regex but make the datetime constructor raise, which
    the caller treats as a parse failure, hence the `s ≤ 59` check. -/
def parse12Sec (cs : List Char) : Option Nat :=
  match num2 cs with
  | none => none
  | some (h, r₁) =>
    if 1 ≤ h ∧ h ≤ 12 then
      match chomp ':' r₁ with
      | none => none
      | some r₂ =>
        match num2 r₂ with
        | none => none
        | some (m, r₃) =>
          if m ≤ 59 then
            match chomp ':' r₃ with
            | none => none
            | some r₄ =>
              match num2 r₄ with
              | none => none
              | some (s, r₅) =>
                if s ≤ 59 then
                  match ws1 r₅ with
                  | none => none
                  | some r₆ =>
                    match meridiemP r₆ with
                    | none => none
                    | some (pm, r₇) =>
                      if r₇ = [] then some (h % 12 + if pm then 12 else 0) else none
                else none
          else none
    else none

/-- `"%I:%M %p"`; result is the hour in 0..23. -/
def parse12NoSec (cs : List Char) : Option Nat :=
  match num2 cs with
  | none => none
  | some (h, r₁) =>
    if 1 ≤ h ∧ h ≤ 12 then
      match chomp ':' r₁ with
      | none => none
      | some r₂ =>
        match num2 r₂ with
        | none => none
        | some (m, r₃) =>
          if m ≤ 59 then
            match ws1 r₃ with
            | none => none
            | some r₄ =>
              match meridiemP r₄ with
              | none => none
              | some (pm, r₅) =>
                if r₅ = [] then some (h % 12 + if pm then 12 else 0) else none
          else none
    else none

/-- `"%H:%M"`; result is the hour in 0..23. -/
def parse24 (cs : List Char) : Option Nat :=
  match num2 cs with
  | none => none
  | some (h, r₁) =>
    if h ≤ 23 then
      match chomp ':' r₁ with
      | none => none
      | some r₂ =>
        match num2 r₂ with
        | none => none
        | some (m, r₃) => if m ≤ 59 ∧ r₃ = [] then some h else none
    else none

/-- Python `s.strip()`: drop leading and trailing whitespace (ASCII
    whitespace; the CSV data contains no exotic Unicode whitespace). -/
def pyStrip (s : String) : String :=
  ⟨((s.toList.dropWhile Char.isWhitespace).reverse.dropWhile Char.isWhitespace).reverse⟩

/-- `time_obj.strftime("%I")`: zero-padded 12-hour hour. -/
def pad2 (n : Nat) : String := if n < 10 then "0" ++ toString n else toString n

/-- Python `s.lstrip("0")`. -/
def stripZeros (s : String) : String := ⟨s.toList.dropWhile (fun c => c = '0')⟩

/-- `time_obj.strftime("%I%p").lower().lstrip("0")` for an hour in 0..23. -/
def fmtHour (h24 : Nat) : String :=
  let h12 := if h24 % 12 = 0 then 12 else h24 % 12
  stripZeros (pad2 h12 ++ if h24 < 12 then "am" else "pm")

/-- The spec's wording: unpadded 12-hour hour + lowercase meridiem. -/
def fmtHourSpec (h24 : Nat) : String :=
  (if h24 % 12 = 0 then "12" else toString (h24 % 12)) ++ if h24 < 12 then "am" else "pm"

/-- `datetime.strptime(x, "%I%p")` on a bucket label, as the hour 0..23.
    Applied only to labels produced by `fmtHour` (as in the source, where
    any other string would raise). -/
def parseLabel (cs : List Char) : Option Nat :=
  match num2 cs with
  | none => none
  | some (h, r₁) =>
    if 1 ≤ h ∧ h ≤ 12 then
      match meridiemP r₁ with
      | none => none
      | some (pm, r₂) => if r₂ = [] then some (h % 12 + if pm then 12 else 0) else none
    else none

/-- Chronological sort key of a non-"Unknown" bucket label. -/
def hourKeyN (s : String) : Nat := (parseLabel s.toList).getD 0

/-- Number of ':' characters, used to show the time formats are mutually
    exclusive. -/
def countColon (cs : List Char) : Nat := cs.countP (fun c => decide (c = ':'))

/-! ## Python cell values and incident records -/

/-- A Python cell value: a string, a non-string object identified by its
    `str()` rendering (e.g. the float `nan` for an empty CSV cell), or an
    absent key. -/
inductive PyVal where
  | missing : PyVal
  | str : String → PyVal
  | other : String → PyVal
deriving DecidableEq

/-- `row.get(field, default)`: the default applies only when the key is
    absent. -/
def PyVal.getD : PyVal → String → PyVal
  | .missing, d => .str d
  | v, _ => v

/-- One normalized incident record (the fields the aggregation engine
    reads). -/
structure Record where
  student_name : PyVal := .missing
  entry_author : PyVal := .missing
  grade_level : PyVal := .missing
  incident_location : PyVal := .missing
  incident_time : PyVal := .missing
  incident_date : PyVal := .missing
  subtype_name : PyVal := .missing
  student_school : PyVal := .missing
deriving DecidableEq

def gradeKey (r : Record) : PyVal := r.grade_level.getD "Unknown"
def locKey (r : Record) : PyVal := r.incident_location.getD "Unknown"
def subtypeKey (r : Record) : PyVal := r.subtype_name.getD "Unknown"
def studentKey (r : Record) : PyVal := r.student_name.getD "Unknown"
def authorKey (r : Record) : PyVal := r.entry_author.getD "Unknown"
def schoolKey (r : Record) : PyVal := r.student_school.getD "Unknown Building"

/-! ## Hour buckets -/

/-- count_by_hour, lines 104-128: the three-pattern cascade on a
    non-empty string value. -/
def cbhBucketStr (s : String) : String :=
  let t := (pyStrip s).toList
  match parse12Sec t with
  | some h => fmtHour h
  | none =>
    match parse12NoSec t with
    | some h => fmtHour h
    | none =>
      match parse24 t with
      | some h => fmtHour h
      | none => "Unknown"

/-- The hour bucket count_by_hour assigns to a record's `incident_time`
    value (`if time_str and isinstance(time_str, str)`). -/
def cbhBucket : PyVal → String
  | .str s => if s = "" then "Unknown" else cbhBucketStr s
  | _ => "Unknown"

def cbhBucketOf (r : Record) : String := cbhBucket r.incident_time

/-- hourly_location, lines 331-339: only `"%I:%M %p"` is attempted. -/
def hlBucketStr (s : String) : String :=
  let t := pyStrip s
  if t = "" then "Unknown"
  else
    match parse12NoSec t.toList with
    | some h => fmtHour h
    | none => "Unknown"

/-- The hour bucket hourly_location assigns: non-None values are passed
    through `str(...)`, then stripped. -/
def hlBucket : PyVal → String
  | .missing => "Unknown"
  | .str s => hlBucketStr s
  | .other o => hlBucketStr o

def hlBucketOf (r : Record) : String := hlBucket r.incident_time

/-- The Hour Bucket exactly as the spec's section 4.1 words it: trim; if
    absent, not a string, or empty after trimming, "Unknown"; otherwise
    the first of the three patterns that parses wins, formatted as the
    unpadded 12-hour hour with lowercase meridiem; "Unknown" if all fail.
    (Second definition for the refinement claim C7, following the spec's
    words rather than the code's control flow.) -/
def hourBucketSpec : PyVal → String
  | .missing => "Unknown"
  | .other _ => "Unknown"
  | .str s =>
    if pyStrip s = "" then "Unknown"
    else
      match parse12Sec (pyStrip s).toList with
      | some h => fmtHourSpec h
      | none =>
        match parse12NoSec (pyStrip s).toList with
        | some h => fmtHourSpec h
        | none =>
          match parse24 (pyStrip s).toList with
          | some h => fmtHourSpec h
          | none => "Unknown"

/-! ## Calendar dates -/

structure CalDate where
  month : Nat
  day : Nat
  year : Nat
deriving DecidableEq

def isLeap (y : Nat) : Bool := y % 4 = 0 && (y % 100 != 0 || y % 400 = 0)

def daysInMonth (m y : Nat) : Nat :=
  if m = 2 then (if isLeap y then 29 else 28)
  else if m = 4 ∨ m = 6 ∨ m = 9 ∨ m = 11 then 30
  else 31

/-- `pd.to_datetime(s, format="%m{sep}%d{sep}%Y", errors="coerce")`:
    strict whole-string month/day/year with calendar validity; the pandas
    Timestamp range is approximated by the year range 1678..2261 (out of
    range coerces to NaT exactly like a malformed string). -/
def parseMDY (sep : Char) (cs : List Char) : Option CalDate :=
  match num2 cs with
  | none => none
  | some (m, r₁) =>
    match chomp sep r₁ with
    | none => none
    | some r₂ =>
      match num2 r₂ with
      | none => none
      | some (d, r₃) =>
        match chomp sep r₃ with
        | none => none
        | some r₄ =>
          match num4 r₄ with
          | none => none
          | some (y, r₅) =>
            if r₅ = [] ∧ 1 ≤ m ∧ m ≤ 12 ∧ 1 ≤ d ∧ d ≤ daysInMonth m y ∧
                1678 ≤ y ∧ y ≤ 2261 then
              some ⟨m, d, y⟩
            else none

/-- count_by_date, lines 158-171: "/" separators first, then "-";
    non-strings and empty strings are skipped. -/
def parseDate : PyVal → Option CalDate
  | .str s =>
    if s = "" then none
    else
      match parseMDY '/' s.toList with
      | some dt => some dt
      | none => parseMDY '-' s.toList
  | _ => none

/-- Gregorian weekday via Zeller's congruence, Monday = 0
    (`date_obj.strftime("%A")` order below). -/
def dowIdx (dt : CalDate) : Nat :=
  let mz := if dt.month ≤ 2 then dt.month + 12 else dt.month
  let yz := if dt.month ≤ 2 then dt.year - 1 else dt.year
  let kk := yz % 100
  let jj := yz / 100
  (dt.day + 13 * (mz + 1) / 5 + kk + kk / 4 + jj / 4 + 5 * jj + 5) % 7

def weekOrder : List String :=
  ["Monday", "Tuesday", "Wednesday", "Thursday", "Friday", "Saturday", "Sunday"]

def dayNameOf (dt : CalDate) : String := weekOrder.getD (dowIdx dt) "Monday"

/-- The calendar dates of the records whose `incident_date` parses, in
    record order (unparseable dates are logged and skipped). -/
def parsedDates (data : List Record) : List CalDate :=
  data.filterMap (fun r => parseDate r.incident_date)

/-- Round-half-to-even to an integer (Python's `round` on the exact
    value). -/
def halfEven (q : ℚ) : ℤ :=
  let f : ℤ := ⌊q⌋
  let r : ℚ := q - (f : ℚ)
  if r < 1 / 2 then f
  else if 1 / 2 < r then f + 1
  else if f % 2 = 0 then f else f + 1

/-- Python `round(x, 2)`. -/
def round2 (q : ℚ) : ℚ := (halfEven (q * 100) : ℚ) / 100

/-! ## The metric functions -/

/-- count_by_grade (lines 70-76): rows are (grade, count) in first-seen
    order. -/
def count_by_grade (data : List Record) : List (PyVal × Nat) :=
  counts (data.map gradeKey)

/-- count_by_location (lines 86-92). -/
def count_by_location (data : List Record) : List (PyVal × Nat) :=
  counts (data.map locKey)

/-- count_by_subtype (lines 223-229). -/
def count_by_subtype (data : List Record) : List (PyVal × Nat) :=
  counts (data.map subtypeKey)

/-- count_by_hour, lines 102-134: the bucket tally with the "Unknown"
    key forced to exist (`hour_counts["Unknown"] = hour_counts.get("Unknown", 0)`
    re-assigns in place when present, appends the key when absent). -/
def cbhTally (data : List Record) : List (String × Nat) :=
  let m := counts (data.map cbhBucketOf)
  if "Unknown" ∈ m.map Prod.fst then m else m ++ [("Unknown", 0)]

/-- count_by_hour (lines 102-143): tally buckets, force the "Unknown"
    key to exist, emit rows sorted chronologically with "Unknown" last. -/
def count_by_hour (data : List Record) : List (String × Nat) :=
  (isortAsc hourKeyN
      (((cbhTally data).map Prod.fst).filter (fun h => h != "Unknown")) ++
    ["Unknown"]).map (fun h => (h, lookupD h (cbhTally data)))

/-- count_by_date (lines 146-210).  The single loop updates
    `date_counts` and `day_totals` independently per parsed date, so each
    is the tally of the parsed-date list (resp. its weekday names); the
    second pass builds `day_counts` from the distinct dates
    (`date_counts` keys); rows pair each weekday total with
    total/occurrences rounded to 2 places, sorted by the fixed
    Monday..Sunday order.  Dates are kept as triples: the source's
    `strftime("%m/%d/%Y")` key is an injective image of the triple. -/
def count_by_date (data : List Record) : List (CalDate × Nat) × List (String × ℚ) :=
  let pd := parsedDates data
  let dateCounts := counts pd
  let dayTotals := counts (pd.map dayNameOf)
  let dayCounts := counts ((dateCounts.map Prod.fst).map dayNameOf)
  let rows := dayTotals.map
    (fun p => (p.1, round2 ((p.2 : ℚ) / (lookupD p.1 dayCounts : ℚ))))
  (dateCounts, isortAsc (fun p => weekOrder.indexOf p.1) rows)

/-- top_students (lines 232-250): tally per student, stable descending
    sort on the count, truncate to `top_n`. -/
def top_students (data : List Record) (top_n : Nat) : List (PyVal × Nat) :=
  (isortDesc (fun p => p.2) (counts (data.map studentKey))).take top_n

/-- top_authors (lines 253-271): same algorithm keyed on entry_author. -/
def top_authors (data : List Record) (top_n : Nat) : List (PyVal × Nat) :=
  (isortDesc (fun p => p.2) (counts (data.map authorKey))).take top_n

/-- `hourly_location_counts[hour][location] += 1` on the nested
    defaultdict (outer keys and inner keys both in insertion order). -/
def bumpHL (h : String) (loc : PyVal) :
    List (String × List (PyVal × Nat)) → List (String × List (PyVal × Nat))
  | [] => [(h, [(loc, 1)])]
  | (h', m) :: rest =>
      if h = h' then (h', bump loc m) :: rest else (h', m) :: bumpHL h loc rest

/-- Sort key of hourly_location's outer loop: the bucket's hour, with
    "Unknown" mapped to `datetime.max` (here 24, above every real hour). -/
def hlSortKey (p : String × List (PyVal × Nat)) : Nat :=
  if p.1 = "Unknown" then 24 else hourKeyN p.1

/-- The nested hour→location tally of hourly_location (lines 319-342). -/
def nestedOf (data : List Record) : List (String × List (PyVal × Nat)) :=
  data.foldl (fun acc r => bumpHL (hlBucketOf r) (locKey r) acc) []

/-- hourly_location (lines 308-353): nested tally, outer groups sorted
    chronologically with "Unknown" last, flattened to
    (Hour, Location, Count) rows. -/
def hourly_location (data : List Record) : List (String × PyVal × Nat) :=
  ((isortAsc hlSortKey (nestedOf data)).map
    (fun p => p.2.map (fun q => (p.1, q.1, q.2)))).flatten

/-- The (hour, location) key hourly_location tallies for a record. -/
def hlPairKey (r : Record) : String × PyVal := (hlBucketOf r, locKey r)

/-- Flat view of the nested tally, for specification. -/
def flattenHL (nested : List (String × List (PyVal × Nat))) :
    List ((String × PyVal) × Nat) :=
  (nested.map (fun p => p.2.map (fun q => ((p.1, q.1), q.2)))).flatten

/-- The metrics set, fields in the fixed key order of
    calculate_summary_metrics. -/
structure Metrics where
  incidents_by_grade : List (PyVal × Nat)
  incidents_by_location : List (PyVal × Nat)
  incidents_by_hour : List (String × Nat)
  incidents_by_date : List (CalDate × Nat) × List (String × ℚ)
  incidents_by_subtype : List (PyVal × Nat)
  top_students : List (PyVal × Nat)
  top_authors : List (PyVal × Nat)
  incidents_by_loc_hour : List (String × PyVal × Nat)

/-- calculate_summary_metrics (lines 46-60). -/
def calculate_summary_metrics (data : List Record) : Metrics where
  incidents_by_grade := count_by_grade data
  incidents_by_location := count_by_location data
  incidents_by_hour := count_by_hour data
  incidents_by_date := count_by_date data
  incidents_by_subtype := count_by_subtype data
  top_students := top_students data 15
  top_authors := top_authors data 10
  incidents_by_loc_hour := hourly_location data

/-! ## The building partitioner -/

/-- `building_groups[building_name].append(row)` with creation on first
    sight (generate_building_reports, lines 617-622). -/
def addToGroups (k : PyVal) (r : Record) :
    List (PyVal × List Record) → List (PyVal × List Record)
  | [] => [(k, [r])]
  | (k', rs) :: gs =>
      if k = k' then (k', rs ++ [r]) :: gs else (k', rs) :: addToGroups k r gs

/-- The grouping loop of generate_building_reports: partitions in
    first-seen order of `student_school` (dict iteration order of the
    per-building loop). -/
def groupBySchool (data : List Record) : List (PyVal × List Record) :=
  data.foldl (fun gs r => addToGroups (schoolKey r) r gs) []

/-- All records of all partitions, in partition iteration order. -/
def joinSnd (gs : List (PyVal × List Record)) : List Record :=
  (gs.map Prod.snd).flatten

/-! ## Specification-side definitions (from the spec's words) -/

/-- Total incidents on all dates falling on weekday `w`. -/
def specWeekTotal (data : List Record) (w : String) : Nat :=
  (parsedDates data).countP (fun dt => decide (dayNameOf dt = w))

/-- Number of distinct dates falling on weekday `w`. -/
def specWeekDates (data : List Record) (w : String) : Nat :=
  (dedupFS (parsedDates data)).countP (fun dt => decide (dayNameOf dt = w))

/-- The day-of-week-average row the spec prescribes for weekday `w`. -/
def specDayRow (data : List Record) (w : String) : String × ℚ :=
  (w, round2 ((specWeekTotal data w : ℚ) / (specWeekDates data w : ℚ)))

/-- The day-of-week-average table the spec prescribes: weekdays in fixed
    Monday..Sunday order, a weekday omitted when no parsed date falls on
    it. -/
def specDayTable (data : List Record) : List (String × ℚ) :=
  (weekOrder.filter
    (fun w => (parsedDates data).any (fun dt => decide (dayNameOf dt = w)))).map
    (specDayRow data)

/-- Ordering of hour-bucket labels used in the hour-counts contract:
    "Unknown" strictly after every real bucket, real buckets by their
    hour. -/
def hourLE (a b : String) : Prop :=
  b = "Unknown" ∨ (a ≠ "Unknown" ∧ hourKeyN a ≤ hourKeyN b)

/-! ## Concrete inputs used by counterexamples and witnesses -/

def mkTimeLoc (t loc : String) : Record :=
  { incident_time := .str t, incident_location := .str loc }

/-- A 24-hour time: count_by_hour buckets it "2pm", hourly_location does
    not parse it. -/
def rec1430 : Record := mkTimeLoc "14:30" "Gym"

/-- One parseable 12-hour time. -/
def ex1 : List Record := [mkTimeLoc "2:30 PM" "Gym"]

/-- Buckets {9am, 2pm, 11am, Unknown, 12pm} out of order. -/
def ex5 : List Record :=
  [mkTimeLoc "9:15 AM" "Hall", mkTimeLoc "2:30 PM" "Gym",
   mkTimeLoc "11:00 AM" "Hall", { incident_time := .missing },
   mkTimeLoc "12:05 PM" "Gym"]

/-- Two Mondays: 3 incidents on 01/06/2025 and 5 on 01/13/2025. -/
def exMon : List Record :=
  List.replicate 3 ({ incident_date := .str "01/06/2025" } : Record) ++
    List.replicate 5 ({ incident_date := .str "01/13/2025" } : Record)

/-- Two students tied at two incidents each, A first. -/
def exTie : List Record :=
  [{ student_name := .str "A" }, { student_name := .str "B" },
   { student_name := .str "A" }, { student_name := .str "B" }]

/-- Three records over two buildings. -/
def exSchools : List Record :=
  [{ student_school := .str "East" }, { student_school := .str "West" },
   { student_school := .str "East" }]

/-- An unparseable date on a record that still has a grade. -/
def recBadDate : Record :=
  { incident_date := .str "13/45/2024", grade_level := .str "9" }

/-- A record with a good date and a grade. -/
def recGoodDate : Record :=
  { incident_date := .str "01/06/2025", grade_level := .str "9" }

/-! ## Lemmas: association-list counting -/

theorem counts_snoc (l : List κ) (k : κ) : counts (l ++ [k]) = bump k (counts l) := by
  simp [counts, List.foldl_append]

theorem dedupFS_snoc (l : List κ) (k : κ) :
    dedupFS (l ++ [k]) = if k ∈ dedupFS l then dedupFS l else dedupFS l ++ [k] := by
  simp [dedupFS, List.foldl_append]

theorem lookupD_bump (k k' : κ) (m : List (κ × Nat)) :
    lookupD k (bump k' m) = if k = k' then lookupD k m + 1 else lookupD k m := by
  induction m with
  | nil => by_cases h : k = k' <;> simp [bump, lookupD, h]
  | cons p rest ih =>
    obtain ⟨k₂, n⟩ := p
    by_cases h₁ : k' = k₂
    · subst h₁
      by_cases h₂ : k = k' <;> simp [bump, lookupD, h₂]
    · by_cases h₂ : k = k₂
      · subst h₂
        have h₁' : ¬ k' = k := h₁
        have h₂' : ¬ k = k' := fun he => h₁ he.symm
        simp [bump, lookupD, h₁', h₂']
      · simp [bump, lookupD, h₁, h₂, ih]

theorem mapFst_bump (k : κ) (m : List (κ × Nat)) :
    (bump k m).map Prod.fst =
      if k ∈ m.map Prod.fst then m.map Prod.fst else m.map Prod.fst ++ [k] := by
  induction m with
  | nil => simp [bump]
  | cons p rest ih =>
    obtain ⟨k₂, n⟩ := p
    by_cases h₁ : k = k₂
    · subst h₁; simp [bump]
    · simp [bump, h₁, ih]
      by_cases h₂ : k ∈ rest.map Prod.fst <;> simp [h₂, h₁]

theorem sumCounts_bump (k : κ) (m : List (κ × Nat)) :
    sumCounts (bump k m) = sumCounts m + 1 := by
  induction m with
  | nil => simp [bump, sumCounts]
  | cons p rest ih =>
    obtain ⟨k₂, n⟩ := p
    by_cases h : k = k₂
    · subst h; simp [bump, sumCounts]; omega
    · simp [bump, sumCounts, h] at ih ⊢; omega

theorem keys_counts (l : List κ) : (counts l).map Prod.fst = dedupFS l := by
  induction l using List.reverseRecOn with
  | nil => simp [counts, dedupFS]
  | append_singleton l k ih =>
    rw [counts_snoc, dedupFS_snoc, mapFst_bump, ih]

theorem sumCounts_counts (l : List κ) : sumCounts (counts l) = l.length := by
  induction l using List.reverseRecOn with
  | nil => simp [counts, sumCounts]
  | append_singleton l k ih => rw [counts_snoc, sumCounts_bump, ih]; simp

theorem mem_dedupFS (l : List κ) (k : κ) : k ∈ dedupFS l ↔ k ∈ l := by
  induction l using List.reverseRecOn with
  | nil => simp [dedupFS]
  | append_singleton l k' ih =>
    rw [dedupFS_snoc]
    by_cases h : k' ∈ dedupFS l
    · simp only [if_pos h]
      constructor
      · intro hk; exact List.mem_append_left _ (ih.mp hk)
      · intro hk
        rcases List.mem_append.mp hk with hk | hk
        · exact ih.mpr hk
        · simp at hk; subst hk; exact h
    · simp only [if_neg h]
      simp [ih]

theorem nodup_dedupFS (l : List κ) : (dedupFS l).Nodup := by
  induction l using List.reverseRecOn with
  | nil => simp [dedupFS]
  | append_singleton l k ih =>
    rw [dedupFS_snoc]
    by_cases h : k ∈ dedupFS l
    · simpa [h] using ih
    · simp [h, List.nodup_append, ih]

theorem keyCount_snoc (k : κ) (l : List κ) (k' : κ) :
    keyCount k (l ++ [k']) = keyCount k l + if k = k' then 1 else 0 := by
  by_cases h : k' = k <;>
    simp [keyCount, List.countP_append, List.countP_cons, h, eq_comm]

theorem lookupD_counts (k : κ) (l : List κ) : lookupD k (counts l) = keyCount k l := by
  induction l using List.reverseRecOn with
  | nil => simp [counts, lookupD, keyCount]
  | append_singleton l k' ih =>
    rw [counts_snoc, lookupD_bump, keyCount_snoc, ih]
    by_cases h : k = k' <;> simp [h]

theorem keyCount_eq_zero (k : κ) (l : List κ) : keyCount k l = 0 ↔ k ∉ l := by
  simp [keyCount, List.countP_eq_zero]
  constructor
  · intro h hk; exact h k hk rfl
  · intro h x hx he; exact h (he ▸ hx)

theorem lookupD_of_mem {m : List (κ × Nat)} {k : κ} {n : Nat}
    (h : (m.map Prod.fst).Nodup) (hm : (k, n) ∈ m) : lookupD k m = n := by
  induction m with
  | nil => simp at hm
  | cons p rest ih =>
    obtain ⟨k₂, n₂⟩ := p
    simp only [List.map_cons, List.nodup_cons] at h
    rcases List.mem_cons.mp hm with he | hm'
    · injection he with he₁ he₂
      subst he₁; subst he₂
      simp [lookupD]
    · have hk : k ≠ k₂ := by
        intro he
        subst he
        exact h.1 (List.mem_map.mpr ⟨(k, n), hm', rfl⟩)
      simp [lookupD, hk, ih h.2 hm']

theorem map_entries_eq {β : Type} (g : κ → Nat → β) (m : List (κ × Nat))
    (h : (m.map Prod.fst).Nodup) :
    m.map (fun p => g p.1 p.2) = (m.map Prod.fst).map (fun k => g k (lookupD k m)) := by
  induction m with
  | nil => rfl
  | cons p rest ih =>
    obtain ⟨k₂, n₂⟩ := p
    simp only [List.map_cons, List.nodup_cons] at h
    have hhead : lookupD k₂ ((k₂, n₂) :: rest) = n₂ := by simp [lookupD]
    simp only [List.map_cons, hhead]
    congr 1
    rw [ih h.2]
    apply List.map_congr_left
    intro k hk
    have hne : k ≠ k₂ := fun he => h.1 (he ▸ hk)
    simp [lookupD, hne]

/-! ## Lemmas: the stable insertion sort -/

theorem insAsc_perm {α : Type} (key : α → Nat) (x : α) (l : List α) :
    insAsc key x l ~ x :: l := by
  induction l with
  | nil => exact List.Perm.refl _
  | cons y ys ih =>
    by_cases h : key x ≤ key y
    · simp [insAsc, h]
    · simp only [insAsc, if_neg h]
      exact (ih.cons y).trans (List.Perm.swap x y ys)

theorem isortAsc_perm {α : Type} (key : α → Nat) (l : List α) :
    isortAsc key l ~ l := by
  induction l with
  | nil => exact List.Perm.refl _
  | cons x xs ih => exact (insAsc_perm key x _).trans (ih.cons x)

theorem insDesc_perm {α : Type} (key : α → Nat) (x : α) (l : List α) :
    insDesc key x l ~ x :: l := by
  induction l with
  | nil => exact List.Perm.refl _
  | cons y ys ih =>
    by_cases h : key y ≤ key x
    · simp [insDesc, h]
    · simp only [insDesc, if_neg h]
      exact (ih.cons y).trans (List.Perm.swap x y ys)

theorem isortDesc_perm {α : Type} (key : α → Nat) (l : List α) :
    isortDesc key l ~ l := by
  induction l with
  | nil => exact List.Perm.refl _
  | cons x xs ih => exact (insDesc_perm key x _).trans (ih.cons x)

theorem mem_insAsc {α : Type} {key : α → Nat} {x z : α} {l : List α} :
    z ∈ insAsc key x l ↔ z = x ∨ z ∈ l := by
  rw [(insAsc_perm key x l).mem_iff]; simp

theorem mem_insDesc {α : Type} {key : α → Nat} {x z : α} {l : List α} :
    z ∈ insDesc key x l ↔ z = x ∨ z ∈ l := by
  rw [(insDesc_perm key x l).mem_iff]; simp

theorem pairwise_insAsc {α : Type} (key : α → Nat) (x : α) {l : List α}
    (h : l.Pairwise (fun a b => key a ≤ key b)) :
    (insAsc key x l).Pairwise (fun a b => key a ≤ key b) := by
  induction l with
  | nil => simp [insAsc]
  | cons y ys ih =>
    rw [List.pairwise_cons] at h
    by_cases hxy : key x ≤ key y
    · simp only [insAsc, if_pos hxy]
      refine List.Pairwise.cons ?_ (List.Pairwise.cons h.1 h.2)
      intro z hz
      rcases List.mem_cons.mp hz with rfl | hz
      · exact hxy
      · exact le_trans hxy (h.1 z hz)
    · simp only [insAsc, if_neg hxy]
      refine List.Pairwise.cons ?_ (ih h.2)
      intro z hz
      rcases mem_insAsc.mp hz with rfl | hz
      · exact le_of_lt (Nat.lt_of_not_le hxy)
      · exact h.1 z hz

theorem sorted_isortAsc {α : Type} (key : α → Nat) (l : List α) :
    (isortAsc key l).Pairwise (fun a b => key a ≤ key b) := by
  induction l with
  | nil => simp [isortAsc]
  | cons x xs ih => exact pairwise_insAsc key x ih

theorem pairwise_insDesc {α : Type} (key : α → Nat) (x : α) {l : List α}
    (h : l.Pairwise (fun a b => key b ≤ key a)) :
    (insDesc key x l).Pairwise (fun a b => key b ≤ key a) := by
  induction l with
  | nil => simp [insDesc]
  | cons y ys ih =>
    rw [List.pairwise_cons] at h
    by_cases hxy : key y ≤ key x
    · simp only [insDesc, if_pos hxy]
      refine List.Pairwise.cons ?_ (List.Pairwise.cons h.1 h.2)
      intro z hz
      rcases List.mem_cons.mp hz with rfl | hz
      · exact hxy
      · exact le_trans (h.1 z hz) hxy
    · simp only [insDesc, if_neg hxy]
      refine List.Pairwise.cons ?_ (ih h.2)
      intro z hz
      rcases mem_insDesc.mp hz with rfl | hz
      · exact le_of_lt (Nat.lt_of_not_le hxy)
      · exact h.1 z hz

theorem sorted_isortDesc {α : Type} (key : α → Nat) (l : List α) :
    (isortDesc key l).Pairwise (fun a b => key b ≤ key a) := by
  induction l with
  | nil => simp [isortDesc]
  | cons x xs ih => exact pairwise_insDesc key x ih

/-! ## Lemmas: the `Before` order and first indices -/

theorem before_nil {α : Type} (a b : α) : ¬ Before a b ([] : List α) := by
  rintro ⟨l₁, l₂, l₃, h⟩
  simp at h

theorem before_cons {α : Type} {a b x : α} {l : List α} (h : Before a b l) :
    Before a b (x :: l) := by
  obtain ⟨l₁, l₂, l₃, rfl⟩ := h
  exact ⟨x :: l₁, l₂, l₃, rfl⟩

theorem before_mem {α : Type} {a b : α} {l : List α} (h : Before a b l) :
    a ∈ l ∧ b ∈ l := by
  obtain ⟨l₁, l₂, l₃, rfl⟩ := h
  constructor <;> simp

theorem before_cons_elim {α : Type} {a b y : α} {ys : List α}
    (h : Before a b (y :: ys)) : (y = a ∧ b ∈ ys) ∨ Before a b ys := by
  obtain ⟨l₁, l₂, l₃, he⟩ := h
  cases l₁ with
  | nil =>
    simp only [List.nil_append] at he
    injection he with h1 h2
    exact Or.inl ⟨h1, by rw [h2]; simp⟩
  | cons z l₁' =>
    simp only [List.cons_append] at he
    injection he with h1 h2
    exact Or.inr ⟨l₁', l₂, l₃, h2⟩

theorem before_of_head_mem {α : Type} {a b : α} {l : List α} (h : b ∈ l) :
    Before a b (a :: l) := by
  obtain ⟨s, t, rfl⟩ := List.append_of_mem h
  exact ⟨[], s, t, rfl⟩

theorem before_take {α : Type} {a b : α} {l : List α} {n : Nat}
    (h : Before a b (l.take n)) : Before a b l := by
  obtain ⟨l₁, l₂, l₃, he⟩ := h
  refine ⟨l₁, l₂, l₃ ++ l.drop n, ?_⟩
  conv_lhs => rw [← List.take_append_drop n l]
  rw [he]
  simp

theorem before_append_singleton {α : Type} {a b k : α} {l : List α}
    (h : Before a b (l ++ [k])) : Before a b l ∨ (b = k ∧ a ∈ l) := by
  obtain ⟨l₁, l₂, l₃, he⟩ := h
  rcases List.eq_nil_or_concat l₃ with rfl | ⟨L, c, rfl⟩
  · have he' : l ++ [k] = (l₁ ++ a :: l₂) ++ [b] := by simpa using he
    obtain ⟨h1, h2⟩ := List.append_inj' he' rfl
    simp only [List.cons.injEq] at h2
    refine Or.inr ⟨h2.1.symm, ?_⟩
    rw [h1]; simp
  · have he' : l ++ [k] = (l₁ ++ a :: l₂ ++ b :: L) ++ [c] := by
      simpa [List.concat_eq_append] using he
    obtain ⟨h1, _⟩ := List.append_inj' he' rfl
    exact Or.inl ⟨l₁, l₂, L, h1⟩

theorem before_map {α β : Type} (f : α → β) {a b : α} {l : List α}
    (h : Before a b l) : Before (f a) (f b) (l.map f) := by
  obtain ⟨l₁, l₂, l₃, rfl⟩ := h
  exact ⟨l₁.map f, l₂.map f, l₃.map f, by simp⟩

theorem before_total {α : Type} {a b : α} {l : List α}
    (ha : a ∈ l) (hb : b ∈ l) (hne : a ≠ b) : Before a b l ∨ Before b a l := by
  induction l with
  | nil => simp at ha
  | cons x xs ih =>
    rcases List.mem_cons.mp ha with rfl | ha'
    · have hb' : b ∈ xs := by
        rcases List.mem_cons.mp hb with rfl | hb'
        · exact absurd rfl hne
        · exact hb'
      exact Or.inl (before_of_head_mem hb')
    · rcases List.mem_cons.mp hb with rfl | hb'
      · exact Or.inr (before_of_head_mem ha')
      · rcases ih ha' hb' with h | h
        · exact Or.inl (before_cons h)
        · exact Or.inr (before_cons h)

theorem idxOf_append_left {α : Type} [DecidableEq α] {k : α} {l : List α}
    (h : k ∈ l) (t : List α) : idxOf k (l ++ t) = idxOf k l := by
  induction l with
  | nil => simp at h
  | cons x xs ih =>
    by_cases hx : x = k
    · simp [idxOf, hx]
    · rcases List.mem_cons.mp h with rfl | h'
      · exact absurd rfl hx
      · simp [idxOf, hx, ih h']

theorem idxOf_append_not_mem {α : Type} [DecidableEq α] {k : α} {p : List α}
    (h : k ∉ p) (t : List α) : idxOf k (p ++ t) = p.length + idxOf k t := by
  induction p with
  | nil => simp
  | cons x xs ih =>
    have hx : x ≠ k := by
      intro he; exact h (he ▸ List.mem_cons_self x xs)
    have h' : k ∉ xs := fun hk => h (List.mem_cons_of_mem x hk)
    simp [idxOf, hx, ih h']
    omega

theorem idxOf_lt_length {α : Type} [DecidableEq α] {k : α} {l : List α}
    (h : k ∈ l) : idxOf k l < l.length := by
  induction l with
  | nil => simp at h
  | cons x xs ih =>
    by_cases hx : x = k
    · simp [idxOf, hx]
    · rcases List.mem_cons.mp h with rfl | h'
      · exact absurd rfl hx
      · simp only [idxOf, if_neg hx, List.length_cons]
        exact Nat.succ_lt_succ (ih h')

theorem before_dedupFS_idxOf {α : Type} [DecidableEq α] {k₁ k₂ : α} {l : List α}
    (h : Before k₁ k₂ (dedupFS l)) : idxOf k₁ l < idxOf k₂ l := by
  induction l using List.reverseRecOn with
  | nil => exact absurd h (by simpa [dedupFS] using before_nil k₁ k₂)
  | append_singleton l k ih =>
    rw [dedupFS_snoc] at h
    by_cases hk : k ∈ dedupFS l
    · rw [if_pos hk] at h
      have h₁ := (mem_dedupFS l k₁).mp (before_mem h).1
      have h₂ := (mem_dedupFS l k₂).mp (before_mem h).2
      rw [idxOf_append_left h₁, idxOf_append_left h₂]
      exact ih h
    · rw [if_neg hk] at h
      have hknl : k ∉ l := fun hm => hk ((mem_dedupFS l k).mpr hm)
      rcases before_append_singleton h with h' | ⟨rfl, hmem⟩
      · have h₁ := (mem_dedupFS l k₁).mp (before_mem h').1
        have h₂ := (mem_dedupFS l k₂).mp (before_mem h').2
        rw [idxOf_append_left h₁, idxOf_append_left h₂]
        exact ih h'
      · have h₁ := (mem_dedupFS l k₁).mp hmem
        rw [idxOf_append_left h₁, idxOf_append_not_mem hknl]
        have := idxOf_lt_length h₁
        omega

theorem before_idx_of_nodup {α : Type} [DecidableEq α] {a b : α} {l : List α}
    (hn : l.Nodup) (h : Before a b l) : idxOf a l < idxOf b l := by
  obtain ⟨l₁, l₂, l₃, rfl⟩ := h
  have h₁ : l₁.Nodup ∧ (a :: (l₂ ++ b :: l₃)).Nodup ∧
      l₁.Disjoint (a :: (l₂ ++ b :: l₃)) := by
    simpa [List.nodup_append] using hn
  have hanl₁ : a ∉ l₁ := fun hm => h₁.2.2 hm (List.mem_cons_self _ _)
  have hbmem : b ∈ a :: (l₂ ++ b :: l₃) := by simp
  have hbnl₁ : b ∉ l₁ := fun hm => h₁.2.2 hm hbmem
  have hcons := List.nodup_cons.mp h₁.2.1
  have hba : a ≠ b := by
    intro he; exact hcons.1 (he ▸ (by simp : b ∈ l₂ ++ b :: l₃))
  have h₂ : l₂.Disjoint (b :: l₃) := by
    have := hcons.2
    exact (List.nodup_append.mp this).2.2
  have hbnl₂ : b ∉ l₂ := fun hm => h₂ hm (List.mem_cons_self _ _)
  simp only [List.append_assoc, List.cons_append]
  rw [idxOf_append_not_mem hanl₁, idxOf_append_not_mem hbnl₁]
  have hia : idxOf a (a :: (l₂ ++ b :: l₃)) = 0 := by simp [idxOf]
  have hib : idxOf b (a :: (l₂ ++ b :: l₃)) = l₂.length + 1 := by
    have hab : a ≠ b := hba
    simp only [idxOf, if_neg hab]
    rw [idxOf_append_not_mem hbnl₂]
    simp [idxOf]
  omega

theorem before_asymm {α : Type} [DecidableEq α] {a b : α} {l : List α}
    (hn : l.Nodup) (h : Before a b l) : ¬ Before b a l := by
  intro h'
  exact absurd (before_idx_of_nodup hn h') (Nat.not_lt.mpr (Nat.le_of_lt (before_idx_of_nodup hn h)))

/-! ## Lemmas: stability of the descending sort -/

theorem before_insDesc_self {α : Type} {key : α → Nat} {a b : α} {l : List α}
    (hb : b ∈ l) (hk : key b ≤ key a) : Before a b (insDesc key a l) := by
  induction l with
  | nil => simp at hb
  | cons y ys ih =>
    by_cases hy : key y ≤ key a
    · simp only [insDesc, if_pos hy]
      exact before_of_head_mem hb
    · simp only [insDesc, if_neg hy]
      have hyb : b ≠ y := by
        intro he
        exact hy (le_trans (he ▸ hk) (le_refl _))
      have hb' : b ∈ ys := by
        rcases List.mem_cons.mp hb with he | h'
        · exact absurd he hyb
        · exact h'
      exact before_cons (ih hb')

theorem before_insDesc {α : Type} {key : α → Nat} {a b x : α} {l : List α}
    (h : Before a b l) (hx : x ≠ a) : Before a b (insDesc key x l) := by
  induction l with
  | nil => exact absurd h (before_nil a b)
  | cons y ys ih =>
    by_cases hy : key y ≤ key x
    · simp only [insDesc, if_pos hy]
      exact before_cons h
    · simp only [insDesc, if_neg hy]
      rcases before_cons_elim h with ⟨rfl, hb⟩ | h'
      · exact before_of_head_mem (mem_insDesc.mpr (Or.inr hb))
      · exact before_cons (ih h')

theorem isortDesc_stable {α : Type} {key : α → Nat} {a b : α} {l : List α}
    (hn : l.Nodup) (hk : key a = key b) (h : Before a b l) :
    Before a b (isortDesc key l) := by
  induction l with
  | nil => exact absurd h (before_nil a b)
  | cons x xs ih =>
    have hx := List.nodup_cons.mp hn
    rcases before_cons_elim h with ⟨rfl, hb⟩ | h'
    · exact before_insDesc_self
        ((isortDesc_perm key xs).symm.subset hb) (le_of_eq hk.symm)
    · have hxa : x ≠ a := by
        intro he
        exact hx.1 (he ▸ (before_mem h').1)
      exact before_insDesc (ih hx.2 h') hxa

/-! ## Lemmas: the building partitioner -/

theorem joinSnd_nil : joinSnd [] = [] := rfl

theorem joinSnd_cons (k : PyVal) (rs : List Record) (gs : List (PyVal × List Record)) :
    joinSnd ((k, rs) :: gs) = rs ++ joinSnd gs := rfl

theorem joinSnd_addToGroups (k : PyVal) (r : Record) (gs : List (PyVal × List Record)) :
    joinSnd (addToGroups k r gs) ~ joinSnd gs ++ [r] := by
  induction gs with
  | nil => simp [addToGroups, joinSnd]
  | cons p rest ih =>
    obtain ⟨k', rs⟩ := p
    by_cases h : k = k'
    · simp only [addToGroups, if_pos h, joinSnd_cons]
      rw [List.append_assoc, List.append_assoc]
      exact List.Perm.append_left rs List.perm_append_comm
    · simp only [addToGroups, if_neg h, joinSnd_cons]
      rw [List.append_assoc]
      exact List.Perm.append_left rs ih

theorem joinSnd_foldl (data : List Record) (gs : List (PyVal × List Record)) :
    joinSnd (data.foldl (fun a r => addToGroups (schoolKey r) r a) gs) ~
      joinSnd gs ++ data := by
  induction data generalizing gs with
  | nil => simp
  | cons r rest ih =>
    simp only [List.foldl_cons]
    refine (ih _).trans ?_
    have h := (joinSnd_addToGroups (schoolKey r) r gs).append_right rest
    simpa using h

theorem mapFst_addToGroups (k : PyVal) (r : Record) (gs : List (PyVal × List Record)) :
    (addToGroups k r gs).map Prod.fst =
      if k ∈ gs.map Prod.fst then gs.map Prod.fst else gs.map Prod.fst ++ [k] := by
  induction gs with
  | nil => simp [addToGroups]
  | cons p rest ih =>
    obtain ⟨k', rs⟩ := p
    by_cases h : k = k'
    · subst h; simp [addToGroups]
    · simp [addToGroups, h, ih]
      by_cases h₂ : k ∈ rest.map Prod.fst <;> simp [h₂, h]

theorem keys_groupBySchool_aux (data : List Record) (gs : List (PyVal × List Record)) :
    (data.foldl (fun a r => addToGroups (schoolKey r) r a) gs).map Prod.fst =
      (data.map schoolKey).foldl
        (fun ks k => if k ∈ ks then ks else ks ++ [k]) (gs.map Prod.fst) := by
  induction data generalizing gs with
  | nil => simp
  | cons r rest ih =>
    simp only [List.foldl_cons, List.map_cons]
    rw [ih, mapFst_addToGroups]

theorem keys_groupBySchool (data : List Record) :
    (groupBySchool data).map Prod.fst = dedupFS (data.map schoolKey) := by
  have h := keys_groupBySchool_aux data []
  simpa [groupBySchool, dedupFS] using h

theorem addToGroups_homog {k : PyVal} {r : Record} {gs : List (PyVal × List Record)}
    (hg : ∀ p ∈ gs, ∀ x ∈ p.2, schoolKey x = p.1) (hk : schoolKey r = k) :
    ∀ p ∈ addToGroups k r gs, ∀ x ∈ p.2, schoolKey x = p.1 := by
  induction gs with
  | nil =>
    intro p hp x hx
    simp only [addToGroups, List.mem_singleton] at hp
    subst hp
    simp only [List.mem_singleton] at hx
    subst hx
    exact hk
  | cons q rest ih =>
    obtain ⟨k', rs⟩ := q
    intro p hp x hx
    by_cases h : k = k'
    · simp only [addToGroups, if_pos h] at hp
      rcases List.mem_cons.mp hp with rfl | hp'
      · rcases List.mem_append.mp hx with hx' | hx'
        · exact hg (k', rs) (List.mem_cons_self _ _) x hx'
        · simp only [List.mem_singleton] at hx'
          subst hx'
          exact h ▸ hk
      · exact hg p (List.mem_cons_of_mem _ hp') x hx
    · simp only [addToGroups, if_neg h] at hp
      rcases List.mem_cons.mp hp with rfl | hp'
      · exact hg (k', rs) (List.mem_cons_self _ _) x hx
      · exact ih (fun q hq => hg q (List.mem_cons_of_mem _ hq)) p hp' x hx

theorem groupBySchool_homog_aux (data : List Record) (gs : List (PyVal × List Record))
    (hg : ∀ p ∈ gs, ∀ x ∈ p.2, schoolKey x = p.1) :
    ∀ p ∈ data.foldl (fun a r => addToGroups (schoolKey r) r a) gs,
      ∀ x ∈ p.2, schoolKey x = p.1 := by
  induction data generalizing gs with
  | nil => exact hg
  | cons r rest ih =>
    simp only [List.foldl_cons]
    exact ih _ (addToGroups_homog hg rfl)

/-! ## Lemmas: the time formats are mutually exclusive -/

theorem countColon_cons (c : Char) (cs : List Char) :
    countColon (c :: cs) = countColon cs + if c = ':' then 1 else 0 := by
  simp [countColon, List.countP_cons]

theorem isDigit_ne_colon {c : Char} (h : c.isDigit = true) : c ≠ ':' := by
  intro he; subst he; exact absurd h (by decide)

theorem isWhitespace_ne_colon {c : Char} (h : c.isWhitespace = true) : c ≠ ':' := by
  intro he; subst he; exact absurd h (by decide)

theorem num2_colons {cs r : List Char} {n : Nat} (h : num2 cs = some (n, r)) :
    countColon cs = countColon r := by
  cases cs with
  | nil => simp [num2] at h
  | cons c₁ t =>
    cases t with
    | nil =>
      by_cases hd : c₁.isDigit
      · simp only [num2, if_pos hd, Option.some.injEq] at h
        injection h with h₁ h₂
        subst h₂
        simp [countColon_cons, isDigit_ne_colon hd, countColon]
      · simp [num2, hd] at h
    | cons c₂ rest =>
      by_cases hd₁ : c₁.isDigit
      · by_cases hd₂ : c₂.isDigit
        · simp only [num2, if_pos hd₁, if_pos hd₂, Option.some.injEq] at h
          injection h with h₁ h₂
          subst h₂
          simp [countColon_cons, isDigit_ne_colon hd₁, isDigit_ne_colon hd₂]
        · simp only [num2, if_pos hd₁, if_neg hd₂, Option.some.injEq] at h
          injection h with h₁ h₂
          subst h₂
          simp [countColon_cons, isDigit_ne_colon hd₁]
      · simp [num2, hd₁] at h

theorem chomp_colons {cs r : List Char} (h : chomp ':' cs = some r) :
    countColon cs = countColon r + 1 := by
  cases cs with
  | nil => simp [chomp] at h
  | cons c rest =>
    by_cases hc : c = ':'
    · simp only [chomp, if_pos hc, Option.some.injEq] at h
      subst h
      simp [countColon_cons, hc]
    · simp [chomp, hc] at h

theorem countColon_dropWhile (l : List Char) :
    countColon (l.dropWhile Char.isWhitespace) = countColon l := by
  induction l with
  | nil => rfl
  | cons c rest ih =>
    by_cases h : c.isWhitespace
    · rw [List.dropWhile_cons]
      simp [h, ih, countColon_cons, isWhitespace_ne_colon h]
    · rw [List.dropWhile_cons]
      simp [h]

theorem ws1_colons {cs r : List Char} (h : ws1 cs = some r) :
    countColon cs = countColon r := by
  cases cs with
  | nil => simp [ws1] at h
  | cons c rest =>
    by_cases hw : c.isWhitespace
    · simp only [ws1, if_pos hw, Option.some.injEq] at h
      subst h
      rw [countColon_dropWhile]
      simp [countColon_cons, isWhitespace_ne_colon hw]
    · simp [ws1, hw] at h

theorem meridiemP_colons {cs r : List Char} {b : Bool} (h : meridiemP cs = some (b, r)) :
    countColon cs = countColon r := by
  cases cs with
  | nil => simp [meridiemP] at h
  | cons c₁ t =>
    cases t with
    | nil => simp [meridiemP] at h
    | cons c₂ rest =>
      have hne : ∀ {d : Char}, (d = 'A' ∨ d = 'a') ∨ (d = 'P' ∨ d = 'p') ∨
          (d = 'M' ∨ d = 'm') → d ≠ ':' := by
        rintro d (⟨rfl | rfl⟩ | ⟨rfl | rfl⟩ | ⟨rfl | rfl⟩) <;> decide
      by_cases h₁ : (c₁ = 'A' ∨ c₁ = 'a') ∧ (c₂ = 'M' ∨ c₂ = 'm')
      · simp only [meridiemP, if_pos h₁, Option.some.injEq] at h
        injection h with hb hr
        subst hr
        simp [countColon_cons, hne (Or.inl h₁.1), hne (Or.inr (Or.inr h₁.2))]
      · by_cases h₂ : (c₁ = 'P' ∨ c₁ = 'p') ∧ (c₂ = 'M' ∨ c₂ = 'm')
        · simp only [meridiemP, if_neg h₁, if_pos h₂, Option.some.injEq] at h
          injection h with hb hr
          subst hr
          simp [countColon_cons, hne (Or.inr (Or.inl h₂.1)),
            hne (Or.inr (Or.inr h₂.2))]
        · simp [meridiemP, h₁, h₂] at h

theorem parse12NoSec_shape {cs : List Char} {h24 : Nat}
    (hp : parse12NoSec cs = some h24) : countColon cs = 1 ∧ h24 < 24 := by
  unfold parse12NoSec at hp
  split at hp
  · exact absurd hp (by simp)
  rename_i h₁ r₁ e₁
  split at hp
  case isFalse => exact absurd hp (by simp)
  rename_i hr
  split at hp
  · exact absurd hp (by simp)
  rename_i r₂ e₂
  split at hp
  · exact absurd hp (by simp)
  rename_i mi r₃ e₃
  split at hp
  case isFalse => exact absurd hp (by simp)
  rename_i hm
  split at hp
  · exact absurd hp (by simp)
  rename_i r₄ e₄
  split at hp
  · exact absurd hp (by simp)
  rename_i pm r₅ e₅
  split at hp
  case isFalse => exact absurd hp (by simp)
  rename_i he
  injection hp with hp
  subst he
  have hc : countColon cs = 1 := by
    have c₁ := num2_colons e₁
    have c₂ := chomp_colons e₂
    have c₃ := num2_colons e₃
    have c₄ := ws1_colons e₄
    have c₅ := meridiemP_colons e₅
    have c₆ : countColon ([] : List Char) = 0 := rfl
    omega
  refine ⟨hc, ?_⟩
  have hlt : h₁ % 12 < 12 := Nat.mod_lt _ (by omega)
  cases pm <;> simp at hp <;> omega

theorem parse12Sec_shape {cs : List Char} {h24 : Nat}
    (hp : parse12Sec cs = some h24) : countColon cs = 2 ∧ h24 < 24 := by
  unfold parse12Sec at hp
  split at hp
  · exact absurd hp (by simp)
  rename_i h₁ r₁ e₁
  split at hp
  case isFalse => exact absurd hp (by simp)
  rename_i hr
  split at hp
  · exact absurd hp (by simp)
  rename_i r₂ e₂
  split at hp
  · exact absurd hp (by simp)
  rename_i mi r₃ e₃
  split at hp
  case isFalse => exact absurd hp (by simp)
  rename_i hm
  split at hp
  · exact absurd hp (by simp)
  rename_i r₄ e₄
  split at hp
  · exact absurd hp (by simp)
  rename_i se r₅ e₅
  split at hp
  case isFalse => exact absurd hp (by simp)
  rename_i hs
  split at hp
  · exact absurd hp (by simp)
  rename_i r₆ e₆
  split at hp
  · exact absurd hp (by simp)
  rename_i pm r₇ e₇
  split at hp
  case isFalse => exact absurd hp (by simp)
  rename_i he
  injection hp with hp
  subst he
  have hc : countColon cs = 2 := by
    have c₁ := num2_colons e₁
    have c₂ := chomp_colons e₂
    have c₃ := num2_colons e₃
    have c₄ := chomp_colons e₄
    have c₅ := num2_colons e₅
    have c₆ := ws1_colons e₆
    have c₇ := meridiemP_colons e₇
    have c₈ : countColon ([] : List Char) = 0 := rfl
    omega
  refine ⟨hc, ?_⟩
  have hlt : h₁ % 12 < 12 := Nat.mod_lt _ (by omega)
  cases pm <;> simp at hp <;> omega

theorem parse24_lt {cs : List Char} {h24 : Nat}
    (hp : parse24 cs = some h24) : h24 < 24 := by
  unfold parse24 at hp
  split at hp
  · exact absurd hp (by simp)
  rename_i h₁ r₁ e₁
  split at hp
  case isFalse => exact absurd hp (by simp)
  rename_i hr
  split at hp
  · exact absurd hp (by simp)
  rename_i r₂ e₂
  split at hp
  · exact absurd hp (by simp)
  rename_i mi r₃ e₃
  split at hp
  case isFalse => exact absurd hp (by simp)
  injection hp with hp
  omega

/-- The with-seconds pattern never matches a string the without-seconds
    pattern matches (they require two resp. one colon). -/
theorem sec_noSec_exclusive {cs : List Char} {h24 : Nat}
    (hp : parse12NoSec cs = some h24) : parse12Sec cs = none := by
  cases e : parse12Sec cs with
  | none => rfl
  | some h' =>
    have h₁ := (parse12NoSec_shape hp).1
    have h₂ := (parse12Sec_shape e).1
    omega

theorem fmtHour_eq_spec {h : Nat} (hh : h < 24) : fmtHour h = fmtHourSpec h := by
  have hall : ∀ i : Fin 24, fmtHour i.val = fmtHourSpec i.val := by decide
  exact hall ⟨h, hh⟩

theorem hl_cbh_agree {s : String} (h : (parse12NoSec (pyStrip s).toList).isSome = true) :
    hlBucket (.str s) = cbhBucket (.str s) := by
  obtain ⟨h24, e⟩ := Option.isSome_iff_exists.mp h
  have ht : pyStrip s ≠ "" := by
    intro he
    have htl : (pyStrip s).toList = [] := by rw [he]; rfl
    rw [htl] at e
    have hnil : parse12NoSec ([] : List Char) = none := rfl
    rw [hnil] at e
    exact Option.noConfusion e
  have hs : s ≠ "" := by
    intro he
    apply ht
    rw [he]
    rfl
  have hsec := sec_noSec_exclusive e
  simp only [hlBucket, hlBucketStr, if_neg ht, cbhBucket, if_neg hs, cbhBucketStr]
  rw [e, hsec]

/-! ## Claim theorems -/

/-- Claim C7 (confirmed): the hour bucket count_by_hour assigns to a raw
    `incident_time` value is exactly the spec's section 4.1 Hour Bucket:
    "Unknown" for absent, non-string, or empty-after-trimming values; the
    first of the three patterns (12-hour with seconds, 12-hour without
    seconds, 24-hour) that parses wins; the result is the zero-padded
    12-hour hour plus lowercase meridiem with the leading zero stripped;
    "Unknown" when all three fail. -/
theorem hour_bucket_matches_spec :
    (∀ v : PyVal, cbhBucket v = hourBucketSpec v) ∧
    ∀ r : Record, cbhBucketOf r = hourBucketSpec r.incident_time := by
  have hmain : ∀ v : PyVal, cbhBucket v = hourBucketSpec v := by
    intro v
    cases v with
    | missing => rfl
    | other o => rfl
    | str s =>
      by_cases hse : s = ""
      · subst hse
        decide
      · by_cases ht : pyStrip s = ""
        · have htl : (pyStrip s).toList = [] := by rw [ht]; rfl
          simp only [cbhBucket, if_neg hse, cbhBucketStr, hourBucketSpec, if_pos ht]
          rw [htl]
          rfl
        · simp only [cbhBucket, if_neg hse, cbhBucketStr, hourBucketSpec, if_neg ht]
          cases e₁ : parse12Sec (pyStrip s).toList with
          | some h => simp [e₁, fmtHour_eq_spec (parse12Sec_shape e₁).2]
          | none =>
            cases e₂ : parse12NoSec (pyStrip s).toList with
            | some h => simp [e₁, e₂, fmtHour_eq_spec (parse12NoSec_shape e₂).2]
            | none =>
              cases e₃ : parse24 (pyStrip s).toList with
              | some h => simp [e₁, e₂, e₃, fmtHour_eq_spec (parse24_lt e₃)]
              | none => simp [e₁, e₂, e₃]
  exact ⟨hmain, fun r => hmain r.incident_time⟩

/-- Claim C1, counterexample: for `incident_time = "14:30"` (24-hour
    format), hourly_location buckets the record under "Unknown" while
    count_by_hour buckets the very same value under "2pm" — so the hour
    bucket used by hourly_location is not the section 4.1 Hour Bucket,
    and the two functions disagree. -/
theorem hourly_location_bucket_mismatch :
    hourly_location [rec1430] = [("Unknown", PyVal.str "Gym", 1)] ∧
    count_by_hour [rec1430] = [("2pm", 1), ("Unknown", 0)] ∧
    hlBucketOf rec1430 ≠ cbhBucketOf rec1430 := by
  decide

/-- Claim C1 (amended): hourly_location parses `incident_time` with only
    the 12-hour-without-seconds pattern, so its hour bucket agrees with
    count_by_hour's exactly on values that are missing, empty after
    trimming, or parse under "hh:mm AM/PM"; on every other string value
    hourly_location falls back to "Unknown" (even where count_by_hour
    parses it with the with-seconds or 24-hour patterns). -/
theorem hourly_location_bucket_agreement :
    (∀ s : String, pyStrip s = "" ∨ (parse12NoSec (pyStrip s).toList).isSome = true →
        hlBucket (PyVal.str s) = cbhBucket (PyVal.str s)) ∧
    (∀ s : String, hlBucket (PyVal.str s) = cbhBucket (PyVal.str s) ∨
        hlBucket (PyVal.str s) = "Unknown") ∧
    hlBucket PyVal.missing = cbhBucket PyVal.missing := by
  refine ⟨?_, ?_, rfl⟩
  · intro s hs
    rcases hs with ht | hp
    · have hlU : hlBucket (.str s) = "Unknown" := by
        simp [hlBucket, hlBucketStr, ht]
      have hcU : cbhBucket (.str s) = "Unknown" := by
        by_cases hse : s = ""
        · simp [cbhBucket, hse]
        · have htl : (pyStrip s).toList = [] := by rw [ht]; rfl
          simp only [cbhBucket, if_neg hse, cbhBucketStr]
          rw [htl]
          rfl
      rw [hlU, hcU]
    · exact hl_cbh_agree hp
  · intro s
    cases e : parse12NoSec (pyStrip s).toList with
    | some h =>
      refine Or.inl (hl_cbh_agree ?_)
      rw [e]
      rfl
    | none =>
      refine Or.inr ?_
      by_cases ht : pyStrip s = ""
      · simp [hlBucket, hlBucketStr, ht]
      · simp only [hlBucket, hlBucketStr, if_neg ht]
        rw [e]

/-- Claim C1, witness: at the 12-hour time "2:30 PM" the two bucket
    functions agree. -/
theorem hourly_location_bucket_agreement_witness :
    hlBucket (PyVal.str "2:30 PM") = cbhBucket (PyVal.str "2:30 PM") :=
  hourly_location_bucket_agreement.1 "2:30 PM" (Or.inr (by decide))

/-- Claim C5 (confirmed): grouping by `student_school` (default "Unknown
    Building") yields partitions whose concatenation is a permutation of
    the input (no record duplicated or dropped), every record lies in the
    partition of its own school key, partition keys are pairwise
    distinct, and partitions are iterated in first-seen order of the
    distinct `student_school` values. -/
theorem groupBySchool_partition_spec (data : List Record) :
    joinSnd (groupBySchool data) ~ data ∧
    (∀ p ∈ groupBySchool data, ∀ r ∈ p.2, schoolKey r = p.1) ∧
    ((groupBySchool data).map Prod.fst).Nodup ∧
    (groupBySchool data).map Prod.fst = dedupFS (data.map schoolKey) := by
  refine ⟨?_, ?_, ?_, keys_groupBySchool data⟩
  · have h := joinSnd_foldl data []
    simpa [groupBySchool, joinSnd_nil] using h
  · exact groupBySchool_homog_aux data [] (by simp)
  · rw [keys_groupBySchool]
    exact nodup_dedupFS _

/-- Claim C5, witness: in the concrete three-record collection the "West"
    partition contains exactly the records whose school key is "West". -/
theorem groupBySchool_partition_spec_witness :
    schoolKey ({ student_school := .str "West" } : Record) = PyVal.str "West" :=
  (groupBySchool_partition_spec exSchools).2.1
    (PyVal.str "West", [{ student_school := .str "West" }]) (by decide)
    ({ student_school := .str "West" } : Record) (by decide)

/-- Claim C8, counterexample: on the empty collection count_by_hour does
    not return an empty table — it returns the forced placeholder row
    ("Unknown", 0). -/
theorem count_by_hour_empty_not_empty :
    count_by_hour ([] : List Record) ≠ [] := by decide

/-- Claim C8 (amended): on the empty collection every metric function
    returns (none fails); all return empty tables except count_by_hour,
    which returns the single guaranteed row ("Unknown", 0). -/
theorem empty_collection_metrics :
    count_by_grade ([] : List Record) = [] ∧
    count_by_location ([] : List Record) = [] ∧
    count_by_subtype ([] : List Record) = [] ∧
    count_by_hour ([] : List Record) = [("Unknown", 0)] ∧
    count_by_date ([] : List Record) = ([], []) ∧
    top_students ([] : List Record) 15 = [] ∧
    top_authors ([] : List Record) 10 = [] ∧
    hourly_location ([] : List Record) = [] := by
  decide

/-! ## Lemmas: count_by_hour's tally -/

theorem lookupD_append (k : κ) (m₁ m₂ : List (κ × Nat)) :
    lookupD k (m₁ ++ m₂) =
      if k ∈ m₁.map Prod.fst then lookupD k m₁ else lookupD k m₂ := by
  induction m₁ with
  | nil => simp [lookupD]
  | cons p rest ih =>
    obtain ⟨k₂, n₂⟩ := p
    by_cases h : k = k₂
    · subst h; simp [lookupD]
    · simp only [List.cons_append, lookupD, if_neg h, List.map_cons, List.append_eq]
      rw [ih]
      by_cases hm : k ∈ rest.map Prod.fst <;> simp [hm, h]

theorem cbhTally_keys_nodup (data : List Record) :
    ((cbhTally data).map Prod.fst).Nodup := by
  by_cases h : "Unknown" ∈ (counts (data.map cbhBucketOf)).map Prod.fst
  · simp only [cbhTally, if_pos h]
    rw [keys_counts]
    exact nodup_dedupFS _
  · simp only [cbhTally, if_neg h]
    rw [List.map_append]
    apply List.Nodup.append
    · rw [keys_counts]; exact nodup_dedupFS _
    · simp
    · intro x hx hx2
      simp only [List.map_cons, List.map_nil, List.mem_singleton] at hx2
      subst hx2
      exact h hx

theorem cbhTally_mem_U (data : List Record) :
    "Unknown" ∈ (cbhTally data).map Prod.fst := by
  by_cases h : "Unknown" ∈ (counts (data.map cbhBucketOf)).map Prod.fst
  · simpa [cbhTally, if_pos h] using h
  · simp [cbhTally, if_neg h]

theorem cbhTally_lookupD (data : List Record) (h : String) :
    lookupD h (cbhTally data) = keyCount h (data.map cbhBucketOf) := by
  by_cases hU : "Unknown" ∈ (counts (data.map cbhBucketOf)).map Prod.fst
  · simp only [cbhTally, if_pos hU]
    exact lookupD_counts h _
  · simp only [cbhTally, if_neg hU]
    rw [lookupD_append]
    by_cases hm : h ∈ (counts (data.map cbhBucketOf)).map Prod.fst
    · rw [if_pos hm]
      exact lookupD_counts h _
    · rw [if_neg hm]
      have hnot : h ∉ data.map cbhBucketOf := by
        intro hmem
        exact hm (by rw [keys_counts]; exact (mem_dedupFS _ _).mpr hmem)
      rw [(keyCount_eq_zero h _).mpr hnot]
      by_cases he : h = "Unknown" <;> simp [lookupD, he]

theorem cbhTally_sum (data : List Record) :
    sumCounts (cbhTally data) = data.length := by
  by_cases h : "Unknown" ∈ (counts (data.map cbhBucketOf)).map Prod.fst
  · simp only [cbhTally, if_pos h]
    rw [sumCounts_counts]
    simp
  · simp only [cbhTally, if_neg h]
    have : sumCounts (counts (data.map cbhBucketOf) ++ [("Unknown", 0)]) =
        sumCounts (counts (data.map cbhBucketOf)) := by
      simp [sumCounts]
    rw [this, sumCounts_counts]
    simp

theorem cbh_keys_perm (data : List Record) :
    ((cbhTally data).map Prod.fst).filter (fun h => h != "Unknown") ++ ["Unknown"] ~
      (cbhTally data).map Prod.fst := by
  have hU := cbhTally_mem_U data
  have hN := cbhTally_keys_nodup data
  have h₁ := List.perm_cons_erase hU
  have h₂ := hN.erase_eq_filter "Unknown"
  refine (List.perm_append_singleton _ _).trans ?_
  rw [← h₂]
  exact h₁.symm

theorem cbh_keys_shape (data : List Record) :
    (count_by_hour data).map Prod.fst =
      isortAsc hourKeyN
        (((cbhTally data).map Prod.fst).filter (fun h => h != "Unknown")) ++
        ["Unknown"] := by
  unfold count_by_hour
  rw [List.map_map]
  exact List.map_id' _

theorem cbh_sum (data : List Record) :
    sumCounts (count_by_hour data) = data.length := by
  unfold count_by_hour
  have hperm :
      (isortAsc hourKeyN
          (((cbhTally data).map Prod.fst).filter (fun h => h != "Unknown")) ++
        ["Unknown"]) ~ (cbhTally data).map Prod.fst :=
    ((isortAsc_perm _ _).append_right _).trans (cbh_keys_perm data)
  have hmap := hperm.map (fun h => lookupD h (cbhTally data))
  have hsum := hmap.sum_eq
  have hvals :
      ((cbhTally data).map Prod.fst).map (fun h => lookupD h (cbhTally data)) =
        (cbhTally data).map Prod.snd := by
    exact (map_entries_eq (fun _ v => v) (cbhTally data) (cbhTally_keys_nodup data)).symm
  simp only [sumCounts, List.map_map]
  calc (((isortAsc hourKeyN _ ++ ["Unknown"]).map
          (Prod.snd ∘ fun h => (h, lookupD h (cbhTally data))))).sum
      = ((isortAsc hourKeyN _ ++ ["Unknown"]).map
          (fun h => lookupD h (cbhTally data))).sum := by rfl
    _ = (((cbhTally data).map Prod.fst).map (fun h => lookupD h (cbhTally data))).sum :=
        hsum
    _ = ((cbhTally data).map Prod.snd).sum := by rw [hvals]
    _ = data.length := cbhTally_sum data

theorem cbh_length (data : List Record) :
    (count_by_hour data).length =
      (dedupFS (data.map cbhBucketOf)).length +
        (if "Unknown" ∈ data.map cbhBucketOf then 0 else 1) := by
  unfold count_by_hour
  rw [List.length_map, List.length_append, (isortAsc_perm _ _).length_eq]
  by_cases hU : "Unknown" ∈ data.map cbhBucketOf
  · have hUk : "Unknown" ∈ (counts (data.map cbhBucketOf)).map Prod.fst := by
      rw [keys_counts]; exact (mem_dedupFS _ _).mpr hU
    simp only [cbhTally, if_pos hUk]
    rw [← (by rw [keys_counts]; exact nodup_dedupFS _ :
          ((counts (data.map cbhBucketOf)).map Prod.fst).Nodup).erase_eq_filter]
    rw [keys_counts]
    rw [List.length_erase_of_mem ((mem_dedupFS _ _).mpr hU)]
    have hpos : 0 < (dedupFS (data.map cbhBucketOf)).length :=
      List.length_pos.mpr (List.ne_nil_of_mem ((mem_dedupFS _ _).mpr hU))
    rw [if_pos hU]
    simp only [List.length_singleton]
    omega
  · have hUk : "Unknown" ∉ (counts (data.map cbhBucketOf)).map Prod.fst := by
      rw [keys_counts]
      exact fun hm => hU ((mem_dedupFS _ _).mp hm)
    simp only [cbhTally, if_neg hUk]
    rw [List.map_append, List.filter_append]
    have h₁ : ((counts (data.map cbhBucketOf)).map Prod.fst).filter
        (fun h => h != "Unknown") = (counts (data.map cbhBucketOf)).map Prod.fst := by
      apply List.filter_eq_self.mpr
      intro a ha
      have hne : a ≠ "Unknown" := fun he => hUk (he ▸ ha)
      simpa using hne
    have h₂ : ([("Unknown", 0)].map Prod.fst).filter (fun h => h != "Unknown") =
        ([] : List String) := by decide
    rw [h₁, h₂, keys_counts, if_neg hU]
    simp

/-- Claim C4 (confirmed): the hour-counts table always contains an
    "Unknown" row (its count is the number of records bucketed "Unknown",
    0 when there are none) and that row is last; bucket labels are
    pairwise ordered chronologically with "Unknown" after every real
    bucket, and no label repeats; on the concrete bucket set
    {9am, 2pm, 11am, Unknown, 12pm} the output order is
    9am, 11am, 12pm, 2pm, Unknown. -/
theorem count_by_hour_order_spec :
    (∀ data : List Record,
      (count_by_hour data).getLast? =
          some ("Unknown", keyCount "Unknown" (data.map cbhBucketOf)) ∧
      ((count_by_hour data).map Prod.fst).Pairwise hourLE ∧
      ((count_by_hour data).map Prod.fst).Nodup) ∧
    (count_by_hour ex5).map Prod.fst = ["9am", "11am", "12pm", "2pm", "Unknown"] := by
  constructor
  · intro data
    have hkeys := cbh_keys_shape data
    have hmemne : ∀ a ∈ isortAsc hourKeyN
        (((cbhTally data).map Prod.fst).filter (fun h => h != "Unknown")),
        a ≠ "Unknown" := by
      intro a ha
      have haf := (isortAsc_perm hourKeyN _).subset ha
      rcases List.mem_filter.mp haf with ⟨_, hp⟩
      simpa using hp
    refine ⟨?_, ?_, ?_⟩
    · unfold count_by_hour
      rw [List.map_append]
      simp only [List.map_cons, List.map_nil]
      rw [List.getLast?_concat]
      rw [cbhTally_lookupD]
    · rw [hkeys]
      apply List.pairwise_append.mpr
      refine ⟨?_, by simp, ?_⟩
      · exact (sorted_isortAsc hourKeyN _).imp_of_mem
          (fun {a b} ha hb hr => Or.inr ⟨hmemne a ha, hr⟩)
      · intro a ha b hb
        simp only [List.mem_singleton] at hb
        subst hb
        exact Or.inl rfl
    · rw [hkeys]
      apply List.Nodup.append
      · exact (isortAsc_perm hourKeyN _).symm.nodup
          ((cbhTally_keys_nodup data).filter _)
      · simp
      · intro x hx hx2
        simp only [List.mem_singleton] at hx2
        subst hx2
        exact (hmemne _ hx) rfl
  · decide

/-! ## Lemmas: the nested hour-location tally -/

theorem flattenHL_cons (h : String) (m : List (PyVal × Nat))
    (N : List (String × List (PyVal × Nat))) :
    flattenHL ((h, m) :: N) = m.map (fun q => ((h, q.1), q.2)) ++ flattenHL N := rfl

theorem length_bump (k : κ) (m : List (κ × Nat)) :
    (bump k m).length = if k ∈ m.map Prod.fst then m.length else m.length + 1 := by
  induction m with
  | nil => simp [bump]
  | cons p rest ih =>
    obtain ⟨k₂, n₂⟩ := p
    by_cases h : k = k₂
    · subst h; simp [bump]
    · simp only [bump, if_neg h, List.length_cons, ih, List.map_cons, List.mem_cons]
      by_cases hm : k ∈ rest.map Prod.fst <;> simp [hm, h]

theorem mem_keys_bump (k k' : κ) (m : List (κ × Nat)) :
    k' ∈ (bump k m).map Prod.fst ↔ k' = k ∨ k' ∈ m.map Prod.fst := by
  rw [mapFst_bump]
  by_cases h : k ∈ m.map Prod.fst
  · rw [if_pos h]
    constructor
    · exact Or.inr
    · rintro (rfl | hm)
      · exact h
      · exact hm
  · rw [if_neg h]
    simp [or_comm]

theorem mapFst_bumpHL (h : String) (l : PyVal)
    (N : List (String × List (PyVal × Nat))) :
    (bumpHL h l N).map Prod.fst =
      if h ∈ N.map Prod.fst then N.map Prod.fst else N.map Prod.fst ++ [h] := by
  induction N with
  | nil => simp [bumpHL]
  | cons p rest ih =>
    obtain ⟨h₂, m₂⟩ := p
    by_cases he : h = h₂
    · subst he; simp [bumpHL]
    · simp [bumpHL, he, ih]
      by_cases h₂m : h ∈ rest.map Prod.fst <;> simp [h₂m, he]

theorem memPairs_outer {pr : String × PyVal}
    {N : List (String × List (PyVal × Nat))}
    (h : pr ∈ (flattenHL N).map Prod.fst) : pr.1 ∈ N.map Prod.fst := by
  induction N with
  | nil => simp [flattenHL] at h
  | cons p rest ih =>
    obtain ⟨h₂, m₂⟩ := p
    rw [flattenHL_cons, List.map_append] at h
    rcases List.mem_append.mp h with h' | h'
    · rw [List.map_map] at h'
      obtain ⟨q, hq, he⟩ := List.mem_map.mp h'
      have : pr.1 = h₂ := by
        have := congrArg Prod.fst he
        simpa using this.symm
      rw [this]
      simp
    · exact List.mem_cons_of_mem _ (ih h')

theorem memPairs_bumpHL (h : String) (l : PyVal)
    (N : List (String × List (PyVal × Nat))) (pr : String × PyVal) :
    pr ∈ (flattenHL (bumpHL h l N)).map Prod.fst ↔
      pr = (h, l) ∨ pr ∈ (flattenHL N).map Prod.fst := by
  induction N with
  | nil => simp [bumpHL, flattenHL]
  | cons p rest ih =>
    obtain ⟨h₂, m₂⟩ := p
    by_cases he : h = h₂
    · subst he
      rw [show bumpHL h l ((h, m₂) :: rest) = (h, bump l m₂) :: rest from by
        simp [bumpHL]]
      rw [flattenHL_cons, flattenHL_cons]
      simp only [List.map_append, List.mem_append, List.map_map]
      constructor
      · rintro (hm | hm)
        · obtain ⟨q, hq, hqe⟩ := List.mem_map.mp hm
          have hq1 : pr = (h, q.1) := by
            simpa using hqe.symm
          have := (mem_keys_bump l q.1 m₂).mp (List.mem_map.mpr ⟨q, hq, rfl⟩)
          rcases this with rfl | hk
          · exact Or.inl (by simpa using hq1)
          · refine Or.inr (Or.inl ?_)
            obtain ⟨q₂, hq₂, hq₂e⟩ := List.mem_map.mp hk
            exact List.mem_map.mpr ⟨q₂, hq₂, by simp [hq₂e, hq1]⟩
        · exact Or.inr (Or.inr hm)
      · rintro (rfl | hm | hm)
        · refine Or.inl ?_
          have hl : l ∈ (bump l m₂).map Prod.fst := (mem_keys_bump l l m₂).mpr (Or.inl rfl)
          obtain ⟨q, hq, hqe⟩ := List.mem_map.mp hl
          exact List.mem_map.mpr ⟨q, hq, by simp [hqe]⟩
        · obtain ⟨q, hq, hqe⟩ := List.mem_map.mp hm
          refine Or.inl ?_
          have hq1 : q.1 ∈ (bump l m₂).map Prod.fst :=
            (mem_keys_bump l q.1 m₂).mpr (Or.inr (List.mem_map.mpr ⟨q, hq, rfl⟩))
          obtain ⟨q₂, hq₂, hq₂e⟩ := List.mem_map.mp hq1
          refine List.mem_map.mpr ⟨q₂, hq₂, ?_⟩
          have := congrArg Prod.fst hqe
          simp at this hq₂e ⊢
          simp [hq₂e, ← hqe]
        · exact Or.inr hm
    · rw [show bumpHL h l ((h₂, m₂) :: rest) = (h₂, m₂) :: bumpHL h l rest from by
        simp [bumpHL, he]]
      rw [flattenHL_cons, flattenHL_cons]
      simp only [List.map_append, List.mem_append]
      rw [ih]
      tauto

theorem len_flattenHL_bumpHL (h : String) (l : PyVal)
    {N : List (String × List (PyVal × Nat))} (hN : (N.map Prod.fst).Nodup) :
    (flattenHL (bumpHL h l N)).length =
      if (h, l) ∈ (flattenHL N).map Prod.fst then (flattenHL N).length
      else (flattenHL N).length + 1 := by
  induction N with
  | nil => simp [bumpHL, flattenHL]
  | cons p rest ih =>
    obtain ⟨h₂, m₂⟩ := p
    rw [List.map_cons, List.nodup_cons] at hN
    by_cases he : h = h₂
    · subst he
      rw [show bumpHL h l ((h, m₂) :: rest) = (h, bump l m₂) :: rest from by
        simp [bumpHL]]
      rw [flattenHL_cons, flattenHL_cons]
      rw [List.length_append, List.length_append, List.length_map, List.length_map,
        length_bump]
      have hnot : (h, l) ∉ (flattenHL rest).map Prod.fst := by
        intro hmem
        exact hN.1 (memPairs_outer hmem)
      by_cases hl : l ∈ m₂.map Prod.fst
      · have hc : (h, l) ∈
            ((m₂.map (fun q => ((h, q.1), q.2)) ++ flattenHL rest)).map Prod.fst := by
          rw [List.map_append]
          apply List.mem_append_left
          rw [List.map_map]
          obtain ⟨q, hq, hq2⟩ := List.mem_map.mp hl
          exact List.mem_map.mpr ⟨q, hq, by simp [hq2]⟩
        rw [if_pos hl, if_pos hc]
      · have hc : (h, l) ∉
            ((m₂.map (fun q => ((h, q.1), q.2)) ++ flattenHL rest)).map Prod.fst := by
          intro hmem
          rw [List.map_append] at hmem
          rcases List.mem_append.mp hmem with hm' | hm'
          · rw [List.map_map] at hm'
            obtain ⟨q, hq, hq2⟩ := List.mem_map.mp hm'
            apply hl
            have hq1 : q.1 = l := by
              have := congrArg Prod.snd hq2
              simpa using this
            exact hq1 ▸ List.mem_map.mpr ⟨q, hq, rfl⟩
          · exact hnot hm'
        rw [if_neg hl, if_neg hc]
        omega
    · rw [show bumpHL h l ((h₂, m₂) :: rest) = (h₂, m₂) :: bumpHL h l rest from by
        simp [bumpHL, he]]
      rw [flattenHL_cons, flattenHL_cons]
      rw [List.length_append, List.length_append]
      rw [ih hN.2]
      have hniff : ((h, l) ∈
          (m₂.map (fun q => ((h₂, q.1), q.2)) ++ flattenHL rest).map Prod.fst) ↔
          ((h, l) ∈ (flattenHL rest).map Prod.fst) := by
        rw [List.map_append]
        constructor
        · intro hm
          rcases List.mem_append.mp hm with hm' | hm'
          · rw [List.map_map] at hm'
            obtain ⟨q, hq, hq2⟩ := List.mem_map.mp hm'
            have : h₂ = h := by
              have := congrArg Prod.fst hq2
              simpa using this
            exact absurd this.symm he
          · exact hm'
        · intro hm
          exact List.mem_append_right _ hm
      by_cases hc : (h, l) ∈ (flattenHL rest).map Prod.fst
      · rw [if_pos hc, if_pos (hniff.mpr hc)]
      · rw [if_neg hc, if_neg (fun hm => hc (hniff.mp hm))]
        omega

theorem hl_nested_spec (data : List Record) :
    ((nestedOf data).map Prod.fst).Nodup ∧
    (∀ pr : String × PyVal,
      pr ∈ (flattenHL (nestedOf data)).map Prod.fst ↔ pr ∈ data.map hlPairKey) ∧
    (flattenHL (nestedOf data)).length = (dedupFS (data.map hlPairKey)).length := by
  induction data using List.reverseRecOn with
  | nil =>
    refine ⟨by simp [nestedOf], ?_, by simp [nestedOf, flattenHL, dedupFS]⟩
    intro pr
    simp [nestedOf, flattenHL]
  | append_singleton data r ih =>
    have hstep : nestedOf (data ++ [r]) =
        bumpHL (hlBucketOf r) (locKey r) (nestedOf data) := by
      simp [nestedOf, List.foldl_append]
    obtain ⟨ih1, ih2, ih3⟩ := ih
    refine ⟨?_, ?_, ?_⟩
    · rw [hstep, mapFst_bumpHL]
      by_cases h : hlBucketOf r ∈ (nestedOf data).map Prod.fst
      · simpa [h] using ih1
      · rw [if_neg h]
        apply List.Nodup.append ih1 (by simp)
        intro x hx hx2
        simp only [List.mem_singleton] at hx2
        subst hx2
        exact h hx
    · intro pr
      rw [hstep, memPairs_bumpHL, ih2]
      rw [List.map_append]
      simp only [List.mem_append, List.map_cons, List.map_nil, List.mem_singleton]
      rw [show (hlBucketOf r, locKey r) = hlPairKey r from rfl]
      tauto
    · rw [hstep, len_flattenHL_bumpHL _ _ ih1, ih3]
      rw [List.map_append]
      simp only [List.map_cons, List.map_nil]
      rw [dedupFS_snoc]
      by_cases hc : hlPairKey r ∈ dedupFS (data.map hlPairKey)
      · rw [if_pos hc, if_pos]
        rw [show (hlBucketOf r, locKey r) = hlPairKey r from rfl]
        exact (ih2 (hlPairKey r)).mpr ((mem_dedupFS _ _).mp hc)
      · rw [if_neg hc, if_neg, List.length_append]
        · simp
        · rw [show (hlBucketOf r, locKey r) = hlPairKey r from rfl]
          intro hm
          exact hc ((mem_dedupFS _ _).mpr ((ih2 (hlPairKey r)).mp hm))

theorem sum_bumpHL (h : String) (l : PyVal)
    (N : List (String × List (PyVal × Nat))) :
    ((bumpHL h l N).map (fun p => sumCounts p.2)).sum =
      (N.map (fun p => sumCounts p.2)).sum + 1 := by
  induction N with
  | nil => simp [bumpHL, sumCounts]
  | cons p rest ih =>
    obtain ⟨h₂, m₂⟩ := p
    by_cases he : h = h₂
    · subst he
      rw [show bumpHL h l ((h, m₂) :: rest) = (h, bump l m₂) :: rest from by
        simp [bumpHL]]
      simp only [List.map_cons, List.sum_cons, sumCounts_bump]
      omega
    · rw [show bumpHL h l ((h₂, m₂) :: rest) = (h₂, m₂) :: bumpHL h l rest from by
        simp [bumpHL, he]]
      simp only [List.map_cons, List.sum_cons, ih]
      omega

theorem sum_nestedOf (data : List Record) :
    ((nestedOf data).map (fun p => sumCounts p.2)).sum = data.length := by
  induction data using List.reverseRecOn with
  | nil => simp [nestedOf]
  | append_singleton data r ih =>
    have hstep : nestedOf (data ++ [r]) =
        bumpHL (hlBucketOf r) (locKey r) (nestedOf data) := by
      simp [nestedOf, List.foldl_append]
    rw [hstep, sum_bumpHL, ih]
    simp

theorem hourly_location_sum (data : List Record) :
    ((hourly_location data).map (fun t => t.2.2)).sum = data.length := by
  unfold hourly_location
  rw [List.map_flatten, List.map_map]
  rw [List.sum_flatten, List.map_map]
  have hcongr : ∀ p : String × List (PyVal × Nat),
      (List.sum ∘ (List.map (fun t : String × PyVal × Nat => t.2.2) ∘
        fun p' : String × List (PyVal × Nat) =>
          p'.2.map (fun q => (p'.1, q.1, q.2)))) p = sumCounts p.2 := by
    intro p
    simp [Function.comp, List.map_map, sumCounts]
    rfl
  rw [List.map_congr_left (fun p _ => hcongr p)]
  rw [((isortAsc_perm hlSortKey (nestedOf data)).map (fun p => sumCounts p.2)).sum_eq]
  exact sum_nestedOf data

theorem hourly_location_length (data : List Record) :
    (hourly_location data).length = (dedupFS (data.map hlPairKey)).length := by
  unfold hourly_location
  rw [List.length_flatten, List.map_map]
  have hcongr : ∀ p : String × List (PyVal × Nat),
      (List.length ∘ fun p' : String × List (PyVal × Nat) =>
        p'.2.map (fun q => (p'.1, q.1, q.2))) p = p.2.length := by
    intro p
    simp [Function.comp]
  rw [List.map_congr_left (fun p _ => hcongr p)]
  rw [((isortAsc_perm hlSortKey (nestedOf data)).map (fun p => p.2.length)).sum_eq]
  have hflat : (flattenHL (nestedOf data)).length =
      ((nestedOf data).map (fun p => p.2.length)).sum := by
    unfold flattenHL
    rw [List.length_flatten, List.map_map]
    congr 1
    apply List.map_congr_left
    intro p _
    simp [Function.comp]
  rw [← hflat]
  exact (hl_nested_spec data).2.2

theorem counts_length (l : List κ) : (counts l).length = (dedupFS l).length := by
  rw [← keys_counts, List.length_map]

theorem keyCount_insert {α β : Type} [DecidableEq β] (f : α → β)
    (l₁ l₂ : List α) (r : α) :
    keyCount (f r) ((l₁ ++ r :: l₂).map f) = keyCount (f r) ((l₁ ++ l₂).map f) + 1 := by
  simp [keyCount, List.map_append, List.countP_append, List.countP_cons]
  omega

/-- Claim C10 (confirmed): in each counting metric — grade, location,
    subtype, hour, and hour-by-location — the counts over all output rows
    sum to the number of records: every record is tallied exactly once
    per metric, "Unknown" buckets included. -/
theorem count_totals_preserved (data : List Record) :
    sumCounts (count_by_grade data) = data.length ∧
    sumCounts (count_by_location data) = data.length ∧
    sumCounts (count_by_subtype data) = data.length ∧
    sumCounts (count_by_hour data) = data.length ∧
    ((hourly_location data).map (fun t => t.2.2)).sum = data.length := by
  refine ⟨?_, ?_, ?_, cbh_sum data, hourly_location_sum data⟩
  · rw [count_by_grade, sumCounts_counts, List.length_map]
  · rw [count_by_location, sumCounts_counts, List.length_map]
  · rw [count_by_subtype, sumCounts_counts, List.length_map]

/-- Claim C9, counterexample: with one record whose time buckets "2pm",
    a single distinct key is observed but the hour-counts table has two
    rows (the forced zero "Unknown" row appears although no record
    defaulted to it). -/
theorem grouping_row_count_mismatch :
    (count_by_hour ex1).length = 2 ∧
    (dedupFS (ex1.map cbhBucketOf)).length = 1 := by
  decide

/-- Claim C9 (amended): for grade, location, subtype and the
    hour-by-location cross-tab, the output row count equals the number of
    distinct observed keys (with "Unknown" among them only when some
    record produced it); for the hour counts a forced ("Unknown", 0) row
    is added exactly when no record bucketed to "Unknown". -/
theorem grouping_row_counts (data : List Record) :
    (count_by_grade data).length = (dedupFS (data.map gradeKey)).length ∧
    (count_by_location data).length = (dedupFS (data.map locKey)).length ∧
    (count_by_subtype data).length = (dedupFS (data.map subtypeKey)).length ∧
    (hourly_location data).length = (dedupFS (data.map hlPairKey)).length ∧
    (count_by_hour data).length =
      (dedupFS (data.map cbhBucketOf)).length +
        (if "Unknown" ∈ data.map cbhBucketOf then 0 else 1) := by
  exact ⟨counts_length _, counts_length _, counts_length _,
    hourly_location_length data, cbh_length data⟩

/-- Claim C6 (confirmed): a record whose `incident_date` parses under
    neither accepted format contributes nothing to incidents_by_date
    (removing it leaves both the per-date counts and the day-of-week
    table unchanged — the condition is only logged, never fatal), yet it
    is still tallied in every counting metric: its key's count in the
    grade/location/subtype tables goes up by one and the hour and
    hour-by-location totals still equal the full record count. -/
theorem bad_date_excluded_only (l₁ l₂ : List Record) (r : Record)
    (h : parseDate r.incident_date = none) :
    count_by_date (l₁ ++ r :: l₂) = count_by_date (l₁ ++ l₂) ∧
    lookupD (gradeKey r) (count_by_grade (l₁ ++ r :: l₂)) =
      lookupD (gradeKey r) (count_by_grade (l₁ ++ l₂)) + 1 ∧
    lookupD (locKey r) (count_by_location (l₁ ++ r :: l₂)) =
      lookupD (locKey r) (count_by_location (l₁ ++ l₂)) + 1 ∧
    lookupD (subtypeKey r) (count_by_subtype (l₁ ++ r :: l₂)) =
      lookupD (subtypeKey r) (count_by_subtype (l₁ ++ l₂)) + 1 ∧
    sumCounts (count_by_hour (l₁ ++ r :: l₂)) = (l₁ ++ r :: l₂).length ∧
    ((hourly_location (l₁ ++ r :: l₂)).map (fun t => t.2.2)).sum =
      (l₁ ++ r :: l₂).length := by
  have hpd : parsedDates (l₁ ++ r :: l₂) = parsedDates (l₁ ++ l₂) := by
    simp [parsedDates, List.filterMap_append, List.filterMap_cons, h]
  refine ⟨?_, ?_, ?_, ?_, cbh_sum _, hourly_location_sum _⟩
  · unfold count_by_date
    rw [hpd]
  · rw [count_by_grade, count_by_grade, lookupD_counts, lookupD_counts]
    exact keyCount_insert gradeKey l₁ l₂ r
  · rw [count_by_location, count_by_location, lookupD_counts, lookupD_counts]
    exact keyCount_insert locKey l₁ l₂ r
  · rw [count_by_subtype, count_by_subtype, lookupD_counts, lookupD_counts]
    exact keyCount_insert subtypeKey l₁ l₂ r

/-- Claim C6, witness: the record with the invalid date "13/45/2024" is
    excluded from incidents_by_date while its grade "9" is still
    counted. -/
theorem bad_date_excluded_only_witness :
    count_by_date ([recGoodDate] ++ recBadDate :: []) =
      count_by_date ([recGoodDate] ++ []) ∧
    lookupD (gradeKey recBadDate) (count_by_grade ([recGoodDate] ++ recBadDate :: [])) =
      lookupD (gradeKey recBadDate) (count_by_grade ([recGoodDate] ++ [])) + 1 := by
  have h := bad_date_excluded_only [recGoodDate] [] recBadDate (by decide)
  exact ⟨h.1, h.2.1⟩

/-- Claim C3 (confirmed): top_students tallies per student_name (missing
    defaults to "Unknown"), sorts stably by count in descending order and
    truncates to the first `top_n` rows; every emitted count is the
    student's true incident count; equal counts keep the order in which
    the students first appear in the input; top_authors is the same
    algorithm keyed on entry_author; the orchestrator invokes them with
    N = 15 and N = 10. -/
theorem top_students_ranking_spec (data : List Record) (n : Nat) :
    top_students data n =
      (isortDesc (fun p => p.2) (counts (data.map studentKey))).take n ∧
    (top_students data n).length = min n (dedupFS (data.map studentKey)).length ∧
    (∀ p ∈ top_students data n, p.2 = keyCount p.1 (data.map studentKey)) ∧
    (top_students data n).Pairwise (fun a b => b.2 ≤ a.2) ∧
    (∀ a b : PyVal × Nat, Before a b (top_students data n) → a.2 = b.2 →
      idxOf a.1 (data.map studentKey) < idxOf b.1 (data.map studentKey)) ∧
    (∀ m : Nat, top_authors data m =
      (isortDesc (fun p => p.2) (counts (data.map authorKey))).take m) ∧
    (calculate_summary_metrics data).top_students = top_students data 15 ∧
    (calculate_summary_metrics data).top_authors = top_authors data 10 := by
  have hkeysnod : ((counts (data.map studentKey)).map Prod.fst).Nodup := by
    rw [keys_counts]; exact nodup_dedupFS _
  have hmnod : (counts (data.map studentKey)).Nodup :=
    List.Nodup.of_map Prod.fst hkeysnod
  have hsortnod :
      (isortDesc (fun p : PyVal × Nat => p.2) (counts (data.map studentKey))).Nodup :=
    (isortDesc_perm _ _).symm.nodup hmnod
  refine ⟨rfl, ?_, ?_, ?_, ?_, fun m => rfl, rfl, rfl⟩
  · rw [top_students, List.length_take, (isortDesc_perm _ _).length_eq, counts_length]
  · intro p hp
    obtain ⟨k, c⟩ := p
    have hp₁ : (k, c) ∈
        isortDesc (fun p : PyVal × Nat => p.2) (counts (data.map studentKey)) :=
      List.take_subset _ _ hp
    have hp₂ : (k, c) ∈ counts (data.map studentKey) :=
      (isortDesc_perm _ _).subset hp₁
    have hl := lookupD_of_mem hkeysnod hp₂
    rw [lookupD_counts] at hl
    exact hl.symm
  · exact List.Pairwise.sublist (List.take_sublist _ _) (sorted_isortDesc _ _)
  · intro a b hB hk
    have hBs : Before a b
        (isortDesc (fun p : PyVal × Nat => p.2) (counts (data.map studentKey))) :=
      before_take hB
    have ha : a ∈ counts (data.map studentKey) :=
      (isortDesc_perm _ _).subset (before_mem hBs).1
    have hb : b ∈ counts (data.map studentKey) :=
      (isortDesc_perm _ _).subset (before_mem hBs).2
    have hne : a ≠ b := by
      intro he
      subst he
      exact absurd (before_idx_of_nodup hsortnod hBs) (lt_irrefl _)
    rcases before_total ha hb hne with hab | hba
    · have hmap := before_map Prod.fst hab
      rw [keys_counts] at hmap
      exact before_dedupFS_idxOf hmap
    · exfalso
      have hstab := isortDesc_stable hmnod hk.symm hba
      exact before_asymm hsortnod hBs hstab

/-- Claim C3, witness: with students A, B, A, B (a tie at two incidents
    each), A first appears before B. -/
theorem top_students_ranking_spec_witness :
    idxOf (PyVal.str "A") (exTie.map studentKey) <
      idxOf (PyVal.str "B") (exTie.map studentKey) :=
  (top_students_ranking_spec exTie 15).2.2.2.2.1
    (PyVal.str "A", 2) (PyVal.str "B", 2)
    ⟨[], [], [], by decide⟩ rfl

/-! ## Lemmas: the day-of-week average table -/

theorem weekOrder_nodup : weekOrder.Nodup := by decide

theorem weekOrder_sorted :
    weekOrder.Pairwise (fun a b => weekOrder.indexOf a < weekOrder.indexOf b) := by
  decide

theorem dowIdx_lt (dt : CalDate) : dowIdx dt < 7 := by
  unfold dowIdx
  exact Nat.mod_lt _ (by norm_num)

theorem dayNameOf_mem (dt : CalDate) : dayNameOf dt ∈ weekOrder := by
  have h7 := dowIdx_lt dt
  unfold dayNameOf
  set i := dowIdx dt with hi
  interval_cases i <;> decide

/-- Claim C2 (confirmed): the day-of-week-average table equals, weekday
    by weekday in fixed Monday..Sunday order, the row the spec
    prescribes: (total incidents on dates of that weekday) divided by
    (number of distinct dates of that weekday), rounded to two decimal
    places; weekdays on which no parseable date falls are omitted, and
    for every weekday that does occur the divisor is positive, so the
    division is never by zero. -/
theorem count_by_date_day_avg (data : List Record) :
    (count_by_date data).2 = specDayTable data ∧
    ∀ w : String, w ∈ (parsedDates data).map dayNameOf →
      0 < specWeekDates data w := by
  constructor
  · have hsnd : (count_by_date data).2 =
        isortAsc (fun p => weekOrder.indexOf p.1)
          ((counts ((parsedDates data).map dayNameOf)).map
            (fun p => (p.1, round2 ((p.2 : ℚ) /
              (lookupD p.1 (counts
                (((counts (parsedDates data)).map Prod.fst).map dayNameOf)) : ℚ))))) :=
      rfl
    rw [hsnd, show ((counts (parsedDates data)).map Prod.fst) =
      dedupFS (parsedDates data) from keys_counts _]
    have hkeynod : ((counts ((parsedDates data).map dayNameOf)).map Prod.fst).Nodup := by
      rw [keys_counts]; exact nodup_dedupFS _
    have hrows : (counts ((parsedDates data).map dayNameOf)).map
        (fun p => (p.1, round2 ((p.2 : ℚ) /
          (lookupD p.1 (counts ((dedupFS (parsedDates data)).map dayNameOf)) : ℚ)))) =
        ((counts ((parsedDates data).map dayNameOf)).map Prod.fst).map
          (specDayRow data) := by
      rw [map_entries_eq (fun w v => (w, round2 ((v : ℚ) /
        (lookupD w (counts ((dedupFS (parsedDates data)).map dayNameOf)) : ℚ))))
        _ hkeynod]
      apply List.map_congr_left
      intro w _
      have h1 : lookupD w (counts ((parsedDates data).map dayNameOf)) =
          specWeekTotal data w := by
        rw [lookupD_counts]
        unfold keyCount specWeekTotal
        rw [List.countP_map]
        rfl
      have h2 : lookupD w (counts ((dedupFS (parsedDates data)).map dayNameOf)) =
          specWeekDates data w := by
        rw [lookupD_counts]
        unfold keyCount specWeekDates
        rw [List.countP_map]
        rfl
      rw [h1, h2]
      rfl
    rw [hrows, keys_counts]
    haveI : IsAntisymm (String × ℚ)
        (fun a b => weekOrder.indexOf a.1 < weekOrder.indexOf b.1) :=
      ⟨fun a b h₁ h₂ => absurd h₂ (Nat.lt_asymm h₁)⟩
    apply List.eq_of_perm_of_sorted
      (r := fun a b : String × ℚ => weekOrder.indexOf a.1 < weekOrder.indexOf b.1)
    · refine (isortAsc_perm _ _).trans ?_
      unfold specDayTable
      apply List.Perm.map
      apply (List.perm_ext_iff_of_nodup (nodup_dedupFS _)
        (weekOrder_nodup.filter _)).mpr
      intro w
      rw [mem_dedupFS, List.mem_filter]
      constructor
      · intro hw
        obtain ⟨dt, hdt, rfl⟩ := List.mem_map.mp hw
        refine ⟨dayNameOf_mem dt, ?_⟩
        rw [List.any_eq_true]
        exact ⟨dt, hdt, by simp⟩
      · rintro ⟨hwo, hany⟩
        rw [List.any_eq_true] at hany
        obtain ⟨dt, hdt, hp⟩ := hany
        simp only [decide_eq_true_eq] at hp
        exact List.mem_map.mpr ⟨dt, hdt, hp⟩
    · -- the sorted output is strictly ordered by weekday index
      have hsor := sorted_isortAsc (fun p : String × ℚ => weekOrder.indexOf p.1)
        ((dedupFS ((parsedDates data).map dayNameOf)).map (specDayRow data))
      have hkeyseq : ((isortAsc (fun p : String × ℚ => weekOrder.indexOf p.1)
          ((dedupFS ((parsedDates data).map dayNameOf)).map (specDayRow data))).map
            Prod.fst).Nodup := by
        apply ((isortAsc_perm _ _).map Prod.fst).symm.nodup
        rw [List.map_map]
        have : ∀ w ∈ dedupFS ((parsedDates data).map dayNameOf),
            (Prod.fst ∘ specDayRow data) w = w := fun w _ => rfl
        rw [List.map_congr_left this, List.map_id']
        exact nodup_dedupFS _
      have hmemwo : ∀ x ∈ isortAsc (fun p : String × ℚ => weekOrder.indexOf p.1)
          ((dedupFS ((parsedDates data).map dayNameOf)).map (specDayRow data)),
          x.1 ∈ weekOrder := by
        intro x hx
        have hx₂ := (isortAsc_perm _ _).subset hx
        obtain ⟨w, hw, rfl⟩ := List.mem_map.mp hx₂
        obtain ⟨dt, _, rfl⟩ := List.mem_map.mp ((mem_dedupFS _ _).mp hw)
        exact dayNameOf_mem dt
      have hnepair := (List.pairwise_map.mp hkeyseq)
      exact (hsor.and hnepair).imp_of_mem
        (fun {a b} ha hb hr =>
          lt_of_le_of_ne hr.1
            (fun he => hr.2 ((List.indexOf_inj (hmemwo a ha) (hmemwo b hb)).mp he)))
    · unfold specDayTable
      exact List.pairwise_map.mpr
        (List.Pairwise.sublist (List.filter_sublist _) weekOrder_sorted)
  · intro w hw
    obtain ⟨dt, hdt, rfl⟩ := List.mem_map.mp hw
    unfold specWeekDates
    rw [List.countP_pos_iff]
    exact ⟨dt, (mem_dedupFS _ _).mpr hdt, by simp⟩

/-- Claim C2, witness: two Mondays carrying 3 and 5 incidents produce the
    single day-of-week row Monday with average 4, and the Monday divisor
    is positive. -/
theorem count_by_date_day_avg_witness :
    0 < specWeekDates exMon "Monday" ∧
    (count_by_date exMon).2 = specDayTable exMon :=
  ⟨(count_by_date_day_avg exMon).2 "Monday" (by decide),
    (count_by_date_day_avg exMon).1⟩

end Discipline
